import Mathlib

set_option linter.unusedSectionVars false

/-!
Verification of the pynufft CPU NUFFT operator (`src/linalg/nufft_cpu.py`,
`src/src/_transform/transform_cpu.py`) against its specification.

The embedding models numpy arrays as C-order flat data lists together with a
shape, scipy sparse matrices as explicit entry lists, and the (possibly
batched) transform pipeline `forward` / `adjoint` / `selfadjoint` of class
`NUFFT_cpu` over an arbitrary commutative star ring `K` of "complex scalars".
The FFT root of unity `e^(-2*pi*i/N)` and the scalar `1/N` used by
`numpy.fft.ifftn` are abstract parameters (`root`, `invN`) carried by the
plan; concrete witnesses instantiate `K` with the Gaussian rationals and
`N = 2`, where the root is `-1`.

Fallible numpy operations (broadcasting, reshape, fancy indexing, sparse
dot) are modelled in `Except`.
-/

namespace Pynufft

/-- Gaussian rationals `ℚ + ℚ·i`: a computable stand-in for the complex
scalars flowing through the pipeline (exact arithmetic). -/
structure GQ where
  re : ℚ
  im : ℚ
deriving DecidableEq, Repr

namespace GQ

def add (x y : GQ) : GQ := ⟨x.re + y.re, x.im + y.im⟩
def mul (x y : GQ) : GQ := ⟨x.re * y.re - x.im * y.im, x.re * y.im + x.im * y.re⟩
def neg (x : GQ) : GQ := ⟨-x.re, -x.im⟩
def conj (x : GQ) : GQ := ⟨x.re, -x.im⟩

instance : Zero GQ := ⟨⟨0, 0⟩⟩
instance : One GQ := ⟨⟨1, 0⟩⟩
instance : Add GQ := ⟨add⟩
instance : Mul GQ := ⟨mul⟩
instance : Neg GQ := ⟨neg⟩

theorem ext_iff {x y : GQ} : x = y ↔ x.re = y.re ∧ x.im = y.im := by
  constructor
  · intro h; exact ⟨congrArg GQ.re h, congrArg GQ.im h⟩
  · intro ⟨h1, h2⟩; cases x; cases y; simp_all

@[simp] theorem add_re (x y : GQ) : (x + y).re = x.re + y.re := rfl
@[simp] theorem add_im (x y : GQ) : (x + y).im = x.im + y.im := rfl
@[simp] theorem mul_re (x y : GQ) : (x * y).re = x.re * y.re - x.im * y.im := rfl
@[simp] theorem mul_im (x y : GQ) : (x * y).im = x.re * y.im + x.im * y.re := rfl
@[simp] theorem neg_re (x : GQ) : (-x).re = -x.re := rfl
@[simp] theorem neg_im (x : GQ) : (-x).im = -x.im := rfl
@[simp] theorem zero_re : (0 : GQ).re = 0 := rfl
@[simp] theorem zero_im : (0 : GQ).im = 0 := rfl
@[simp] theorem one_re : (1 : GQ).re = 1 := rfl
@[simp] theorem one_im : (1 : GQ).im = 0 := rfl

instance : CommRing GQ where
  add_assoc a b c := by simp [ext_iff]; constructor <;> ring
  zero_add a := by simp [ext_iff]
  add_zero a := by simp [ext_iff]
  add_comm a b := by simp [ext_iff]; constructor <;> ring
  left_distrib a b c := by simp [ext_iff]; constructor <;> ring
  right_distrib a b c := by simp [ext_iff]; constructor <;> ring
  zero_mul a := by simp [ext_iff]
  mul_zero a := by simp [ext_iff]
  mul_assoc a b c := by simp [ext_iff]; constructor <;> ring
  one_mul a := by simp [ext_iff]
  mul_one a := by simp [ext_iff]
  mul_comm a b := by simp [ext_iff]; constructor <;> ring
  neg_add_cancel a := by simp [ext_iff]
  nsmul := nsmulRec
  zsmul := zsmulRec

instance : StarRing GQ where
  star := conj
  star_involutive x := by simp [conj]
  star_mul x y := by simp [ext_iff, conj]; constructor <;> ring
  star_add x y := by simp [ext_iff, conj]; ring

@[simp] theorem star_re (x : GQ) : (star x).re = x.re := rfl
@[simp] theorem star_im (x : GQ) : (star x).im = -x.im := rfl

end GQ

/-- Errors surfaced by numpy/scipy operations in the model. -/
inductive Err where
  /-- numpy `ValueError`: incompatible broadcast shapes, bad reshape,
  dimension mismatch in a dot product. -/
  | valueError : Err
  /-- numpy `IndexError`: fancy index out of bounds. -/
  | indexError : Err
  /-- Python `AttributeError`: attribute (such as the lazy `W`) not set. -/
  | attributeError : Err
  /-- Invalid geometry reported by the interpolator builder. -/
  | configurationError : Err
deriving DecidableEq, Repr

/-- A numpy ndarray: C-order flat `data` together with its `shape`. -/
structure Arr (K : Type) where
  shape : List ℕ
  data : List K
deriving DecidableEq, Repr

/-- C-order flat index of multi-index `idx` in an array of shape `sh`. -/
def flatten : List ℕ → List ℕ → ℕ
  | _, [] => 0
  | [], _ => 0
  | _ :: sh, i :: idx => i * sh.prod + flatten sh idx

/-- C-order multi-index of flat position `n` in an array of shape `sh`. -/
def unflatten : List ℕ → ℕ → List ℕ
  | [], _ => []
  | _ :: sh, n => n / sh.prod :: unflatten sh (n % sh.prod)

/-- A scipy sparse matrix of shape `M × N`, abstracted as an explicit list of
`(row, col, value)` entries (the CSR layout is an access-order detail with no
observable effect on `dot`). -/
structure SpMat (K : Type) where
  M : ℕ
  N : ℕ
  entries : List (ℕ × ℕ × K)
deriving DecidableEq, Repr

/-- scipy `getH()`: the conjugate transpose. -/
def SpMat.getH {K : Type} [CommRing K] [StarRing K] (A : SpMat K) : SpMat K :=
  ⟨A.N, A.M, A.entries.map (fun e => (e.2.1, e.1, star e.2.2))⟩

section Ops

variable {K : Type} [CommRing K] [StarRing K] [DecidableEq K]

/-- numpy broadcasting of two shapes, on reversed (trailing-first) dim lists. -/
def bcastRev : List ℕ → List ℕ → Option (List ℕ)
  | [], t => some t
  | s, [] => some s
  | a :: s, b :: t =>
    if a = b ∨ a = 1 ∨ b = 1 then (bcastRev s t).map (fun r => max a b :: r)
    else none

/-- numpy broadcasting of two shapes (`None` = `ValueError`). -/
def bcast2 (s t : List ℕ) : Option (List ℕ) :=
  (bcastRev s.reverse t.reverse).map List.reverse

/-- Read the element of an operand of shape `s` addressed by multi-index
`odx` of the broadcast result shape (dims of size 1 are repeated). -/
def bGet (s : List ℕ) (data : List K) (odx : List ℕ) : K :=
  data.getD (flatten s (List.zipWith (fun sd c => if sd = 1 then 0 else c) s
    (odx.drop (odx.length - s.length)))) 0

/-- numpy elementwise `x * y` with broadcasting. -/
def arrMul (x y : Arr K) : Except Err (Arr K) :=
  match bcast2 x.shape y.shape with
  | none => .error .valueError
  | some sh => .ok ⟨sh, (List.range sh.prod).map
      (fun i => bGet x.shape x.data (unflatten sh i) * bGet y.shape y.data (unflatten sh i))⟩

/-- numpy `reshape` (C order): same flat data, new shape; sizes must agree. -/
def reshapeTo (sh : List ℕ) (x : Arr K) : Except Err (Arr K) :=
  if sh.prod = x.shape.prod then .ok ⟨sh, x.data⟩ else .error .valueError

/-- Unnormalized 1-D discrete Fourier transform along axis `a` of a C-order
array, with twiddle `w`: entry at multi-index `idx` is
`sum_j w (idx[a] * j) * x[idx with idx[a] := j]`.  With
`w t = root s ^ t` and `root s = exp(-2*pi*i/s)` this is `numpy.fft.fft`
along axis `a`. -/
def dft1Core (w : ℕ → K) (a : ℕ) (x : Arr K) : Arr K :=
  let s := x.shape.getD a 0
  ⟨x.shape, (List.range x.shape.prod).map (fun i =>
    let idx := unflatten x.shape i
    ∑ j ∈ Finset.range s, w (idx.getD a 0 * j) * x.data.getD (flatten x.shape (idx.set a j)) 0)⟩

/-- `numpy.fft.fftn(x, axes=axes)`: the 1-D transform applied along each of
the given axes in turn (raises for an out-of-range axis). -/
def fftn (root : ℕ → K) (axes : List ℕ) (x : Arr K) : Except Err (Arr K) :=
  if ∀ a ∈ axes, a < x.shape.length then
    .ok (axes.foldl (fun acc a =>
      dft1Core (fun t => root (acc.shape.getD a 0) ^ t) a acc) x)
  else .error .valueError

/-- One axis of `numpy.fft.ifftn`: the conjugate-twiddle transform scaled by
`1/s` (`invN s`). -/
def ifft1Core (root invN : ℕ → K) (a : ℕ) (x : Arr K) : Arr K :=
  let s := x.shape.getD a 0
  let y := dft1Core (fun t => star (root s) ^ t) a x
  ⟨y.shape, y.data.map (fun v => invN s * v)⟩

/-- `numpy.fft.ifftn(x, axes=axes)`. -/
def ifftn (root invN : ℕ → K) (axes : List ℕ) (x : Arr K) : Except Err (Arr K) :=
  if ∀ a ∈ axes, a < x.shape.length then
    .ok (axes.foldl (fun acc a => ifft1Core root invN a acc) x)
  else .error .valueError

/-- Sequential fancy-index assignment `d[dst] = srcData[src]` over
`(src, dst)` index pairs. -/
def copyPairs (srcData : List K) (pairs : List (ℕ × ℕ)) (d : List K) : List K :=
  pairs.foldl (fun d pr => d.set pr.2 (srcData.getD pr.1 0)) d

/-- scipy CSR `A.dot(v)` for a dense `v` of shape `(N,)` or `(N, b)`
(C order), producing shape `(M,)` or `(M, b)`. -/
def spDot (A : SpMat K) (v : Arr K) : Except Err (Arr K) :=
  if v.shape.head? = some A.N ∧ v.shape.length ≤ 2 then
    let cols := v.shape.tail.prod
    .ok ⟨A.M :: v.shape.tail, (List.range (A.M * cols)).map (fun i =>
      (A.entries.map (fun e =>
        if e.1 = i / cols then e.2.2 * v.data.getD (e.2.1 * cols + i % cols) 0 else 0)).sum)⟩
  else .error .valueError

end Ops

/-- Modelled from the spec: `helper.preindex_copy` — the reorder-table
builder lives in the helper module, which is not under `src/`.  Per the
spec's data model, the tables are two equal-length integer index sequences
(`NdOrder`, `KdOrder`) such that position `NdOrder[i]` of a flattened
`Nd`-shaped buffer corresponds to position `KdOrder[i]` of a flattened
`Kd`-shaped buffer under centered zero-padding, of length `prod Nd`. -/
def preindexCopy (Nd Kd : List ℕ) : List ℕ × List ℕ × ℕ :=
  let offset := List.zipWith (fun k n => (k - n) / 2) Kd Nd
  (List.range Nd.prod,
   (List.range Nd.prod).map (fun i =>
     flatten Kd (List.zipWith (· + ·) (unflatten Nd i) offset)),
   Nd.prod)

/-- The operator state created by `NUFFT_cpu.plan` (plus the ambient FFT
constants and instrumentation).  `root N` models `exp(-2*pi*i/N)`, `invN N`
models the `1/N` factor of `numpy.fft.ifftn`, `csqrt` models elementwise
`** 0.5`, and `wCount` counts how many times `_precompute_sp` ran. -/
structure Plan (K : Type) where
  Nd : List ℕ
  Kd : List ℕ
  ndims : ℕ
  ft_axes : List ℕ
  batch : ℕ
  parallel_flag : Bool
  sn : Arr K
  sp : SpMat K
  spH : SpMat K
  M : ℕ
  NdCPUorder : List ℕ
  KdCPUorder : List ℕ
  nelem : ℕ
  W : Option (Arr K)
  wCount : ℕ
  root : ℕ → K
  invN : ℕ → K
  csqrt : K → K

namespace NUFFT_cpu

variable {K : Type} [CommRing K] [StarRing K] [DecidableEq K]

/-- `self.multi_Nd`. -/
def multi_Nd (p : Plan K) : List ℕ := if p.parallel_flag then p.Nd ++ [p.batch] else p.Nd

/-- `self.multi_Kd`. -/
def multi_Kd (p : Plan K) : List ℕ := if p.parallel_flag then p.Kd ++ [p.batch] else p.Kd

/-- `self.multi_M`. -/
def multi_M (p : Plan K) : List ℕ := if p.parallel_flag then [p.M, p.batch] else [p.M]

/-- `self.multi_prodKd`. -/
def multi_prodKd (p : Plan K) : List ℕ :=
  if p.parallel_flag then [p.Kd.prod, p.batch] else [p.Kd.prod]

/-- Scaling: `xx = x * self.sn`. -/
def x2xx (p : Plan K) (x : Arr K) : Except Err (Arr K) := arrMul x p.sn

/-- The `(src, dst)` flat index pairs written by the scatter loop of `xx2k`:
`output_x.ravel()[KdCPUorder*batch + bat] = xx.ravel()[NdCPUorder*batch + bat]`
for each `bat < batch`. -/
def copyIdx (p : Plan K) : List (ℕ × ℕ) :=
  (List.range p.batch).flatMap (fun bat =>
    (p.NdCPUorder.zip p.KdCPUorder).map
      (fun nk => (nk.1 * p.batch + bat, nk.2 * p.batch + bat)))

/-- Oversampled FFT: zero buffer of shape `multi_Kd`, scatter `xx` into it
via the reorder tables, then `numpy.fft.fftn` along `ft_axes`. -/
def xx2k (p : Plan K) (xx : Arr K) : Except Err (Arr K) :=
  let buf : List K := List.replicate (multi_Kd p).prod 0
  let pairs := copyIdx p
  if ∀ pr ∈ pairs, pr.1 < xx.data.length ∧ pr.2 < buf.length then
    fftn p.root p.ft_axes ⟨multi_Kd p, copyPairs xx.data pairs buf⟩
  else .error .indexError

/-- `k_vec = numpy.reshape(k, self.multi_prodKd, order='C')`. -/
def k2vec (p : Plan K) (k : Arr K) : Except Err (Arr K) := reshapeTo (multi_prodKd p) k

/-- Interpolation: `y = self.sp.dot(k_vec)`. -/
def vec2y (p : Plan K) (kv : Arr K) : Except Err (Arr K) := spDot p.sp kv

/-- `k2y`: interpolation by the sparse matrix-vector multiplication. -/
def k2y (p : Plan K) (k : Arr K) : Except Err (Arr K) := k2vec p k >>= vec2y p

/-- Gridding: `k_vec = self.spH.dot(y)`. -/
def y2vec (p : Plan K) (y : Arr K) : Except Err (Arr K) := spDot p.spH y

/-- `k = numpy.reshape(k_vec, self.multi_Kd, order='C')`. -/
def vec2k (p : Plan K) (kv : Arr K) : Except Err (Arr K) := reshapeTo (multi_Kd p) kv

/-- `y2k`: gridding by the sparse matrix-vector multiplication. -/
def y2k (p : Plan K) (y : Arr K) : Except Err (Arr K) := y2vec p y >>= vec2k p

/-- The `(src, dst)` flat index pairs of the gather loop of `k2xx`:
`xx.ravel()[NdCPUorder*batch + bat] = k.ravel()[KdCPUorder*batch + bat]`. -/
def gatherIdx (p : Plan K) : List (ℕ × ℕ) :=
  (List.range p.batch).flatMap (fun bat =>
    (p.NdCPUorder.zip p.KdCPUorder).map
      (fun nk => (nk.2 * p.batch + bat, nk.1 * p.batch + bat)))

/-- Inverse FFT and cropping: `numpy.fft.ifftn` along `ft_axes`, then gather
into a zero buffer of shape `multi_Nd` via the reorder tables. -/
def k2xx (p : Plan K) (k : Arr K) : Except Err (Arr K) := do
  let k2 ← ifftn p.root p.invN p.ft_axes k
  let buf : List K := List.replicate (multi_Nd p).prod 0
  let pairs := gatherIdx p
  if ∀ pr ∈ pairs, pr.1 < k2.data.length ∧ pr.2 < buf.length then
    .ok (⟨multi_Nd p, copyPairs k2.data pairs buf⟩ : Arr K)
  else .error .indexError

/-- Rescaling, identical to `x2xx`. -/
def xx2x (p : Plan K) (xx : Arr K) : Except Err (Arr K) := x2xx p xx

/-- `forward(x) = k2y(xx2k(x2xx(x)))`. -/
def forward (p : Plan K) (x : Arr K) : Except Err (Arr K) :=
  x2xx p x >>= xx2k p >>= k2y p

/-- `adjoint(y) = xx2x(k2xx(y2k(y)))`. -/
def adjoint (p : Plan K) (y : Arr K) : Except Err (Arr K) :=
  y2k p y >>= k2xx p >>= xx2x p

/-- Fused interpolation-gridding:
`Xk = k2vec(k); k = y2vec(vec2y(Xk)); k = vec2k(k)`. -/
def k2y2k (p : Plan K) (k : Arr K) : Except Err (Arr K) :=
  k2vec p k >>= vec2y p >>= y2vec p >>= vec2k p

/-- `selfadjoint(x) = xx2x(k2xx(k2y2k(xx2k(x2xx(x)))))`. -/
def selfadjoint (p : Plan K) (x : Arr K) : Except Err (Arr K) :=
  x2xx p x >>= xx2k p >>= k2y2k p >>= k2xx p >>= xx2x p

/-- `_precompute_sp`: `W0 = ones((M,)); W = xx2k(adjoint(W0));`
`self.W = (W * W.conj()) ** 0.5`.  Failures propagate (the `except` clause
re-raises).  `wCount` is incremented as instrumentation. -/
def precompute_sp (p : Plan K) : Except Err (Plan K) := do
  let W0 : Arr K := ⟨[p.M], List.replicate p.M 1⟩
  let a ← adjoint p W0
  let W ← xx2k p a
  .ok { p with W := some ⟨W.shape, W.data.map (fun v => p.csqrt (v * star v))⟩,
               wCount := p.wCount + 1 }

/-- The `try` body of `selfadjoint2`: `x2 = self.k2xx(self.W * self.xx2k(x))`.
Python evaluates `self.W` first, so a missing attribute raises before
`xx2k` runs. -/
def selfadjoint2Body (p : Plan K) (x : Arr K) : Except Err (Arr K) :=
  match p.W with
  | none => .error .attributeError
  | some w => do
      let k ← xx2k p x
      let wk ← arrMul w k
      k2xx p wk

/-- `selfadjoint2`: `try: body except: _precompute_sp(); body` — the cache
rebuild is triggered by catching any failure of the body. -/
def selfadjoint2 (p : Plan K) (x : Arr K) : Plan K × Except Err (Arr K) :=
  match selfadjoint2Body p x with
  | .ok r => (p, .ok r)
  | .error _ =>
    match precompute_sp p with
    | .ok p2 => (p2, selfadjoint2Body p2 x)
    | .error e => (p, .error e)

/-- Well-formedness of the state produced by a successful `plan()` call:
shape conformance of the builder outputs, `spH` the conjugate transpose of
`sp`, and the reorder tables as built by `preindex_copy`. -/
def PlanWF (p : Plan K) : Prop :=
  p.ndims = p.Nd.length ∧
  p.Kd.length = p.Nd.length ∧
  (∀ nk ∈ p.Nd.zip p.Kd, nk.1 ≤ nk.2) ∧
  (∀ n ∈ p.Nd, 0 < n) ∧
  (∀ a ∈ p.ft_axes, a < p.Nd.length) ∧
  0 < p.batch ∧
  (p.parallel_flag = false → p.batch = 1) ∧
  p.sn.shape = (if p.parallel_flag then p.Nd ++ [1] else p.Nd) ∧
  p.sn.data.length = p.Nd.prod ∧
  p.sp.M = p.M ∧
  p.sp.N = p.Kd.prod ∧
  p.spH = p.sp.getH ∧
  (∀ e ∈ p.sp.entries, e.1 < p.sp.M ∧ e.2.1 < p.sp.N) ∧
  (p.NdCPUorder, p.KdCPUorder, p.nelem) = preindexCopy p.Nd p.Kd

instance (p : Plan K) : Decidable (PlanWF p) := by
  unfold PlanWF; infer_instance

end NUFFT_cpu

instance {ε α : Type} [DecidableEq ε] [DecidableEq α] : DecidableEq (Except ε α)
  | .error e, .error f =>
    if h : e = f then .isTrue (by rw [h]) else .isFalse (fun hh => h (Except.error.inj hh))
  | .error _, .ok _ => .isFalse (fun hh => Except.noConfusion hh)
  | .ok _, .error _ => .isFalse (fun hh => Except.noConfusion hh)
  | .ok x, .ok y =>
    if h : x = y then .isTrue (by rw [h]) else .isFalse (fun hh => h (Except.ok.inj hh))

/-- Concrete root-of-unity family over the Gaussian rationals:
`gqRoot 2 = -1` (and `gqRoot 4 = -i`), matching `exp(-2*pi*i/N)`. -/
def gqRoot : ℕ → GQ := fun n => if n = 2 then ⟨-1, 0⟩ else if n = 4 then ⟨0, -1⟩ else 1

/-- `1/N` over the Gaussian rationals. -/
def gqInvN : ℕ → GQ := fun n => ⟨(n : ℚ)⁻¹, 0⟩

/-- A concrete instantiation of the elementwise `** 0.5` parameter; the
cache-discipline claims never depend on its numeric meaning. -/
def gqCsqrt : GQ → GQ := fun z => z

/-- A small planned operator: `Nd = (1,)`, `Kd = (2,)`, `M = 1`,
single-channel, `sn = [1]`, `sp = [[1, 0]]`. -/
def pW : Plan GQ where
  Nd := [1]
  Kd := [2]
  ndims := 1
  ft_axes := [0]
  batch := 1
  parallel_flag := false
  sn := ⟨[1], [1]⟩
  sp := ⟨1, 2, [(0, 0, 1)]⟩
  spH := ⟨2, 1, [(0, 0, 1)]⟩
  M := 1
  NdCPUorder := [0]
  KdCPUorder := [0]
  nelem := 1
  W := none
  wCount := 0
  root := gqRoot
  invN := gqInvN
  csqrt := gqCsqrt

/-- The complex inner product `sum u_i * conj v_i` over flat data lists. -/
def innerL {K : Type} [CommRing K] [StarRing K] (u v : List K) : K :=
  ∑ i ∈ Finset.range u.length, u.getD i 0 * star (v.getD i 0)

/-- The complex inner product of two arrays. -/
def innerA {K : Type} [CommRing K] [StarRing K] (u v : Arr K) : K :=
  innerL u.data v.data

/-- The `KdCPUorder` entry for flat `Nd`-position `i`: the same multi-index
shifted by the centered-padding offset, flattened in the `Kd` grid. -/
def kdIndex (Nd Kd : List ℕ) (i : ℕ) : ℕ :=
  flatten Kd (List.zipWith (· + ·) (unflatten Nd i)
    (List.zipWith (fun k n => (k - n) / 2) Kd Nd))

/-- The batched `(src, dst)` pair list `(t*B + bat, f t*B + bat)` for
`t < P`, `bat < B`. -/
def batchPairs (B P : ℕ) (f : ℕ → ℕ) : List (ℕ × ℕ) :=
  (List.range B).flatMap (fun bat =>
    (List.range P).map (fun t => (t * B + bat, f t * B + bat)))

/-- The explicit sample-domain data produced by a single-channel `forward`
run (scaling, scatter, FFT, sparse interpolation), as a function of the
flat input data. -/
def fwdData {K : Type} [CommRing K] [StarRing K] [DecidableEq K]
    (p : Plan K) (xd : List K) : List K :=
  (List.range (p.sp.M * (NUFFT_cpu.multi_prodKd p).tail.prod)).map (fun i =>
    (p.sp.entries.map (fun e =>
      if e.1 = i / (NUFFT_cpu.multi_prodKd p).tail.prod then
        e.2.2 * (p.ft_axes.foldl (fun acc a =>
          dft1Core (fun t => p.root (acc.shape.getD a 0) ^ t) a acc)
          (⟨NUFFT_cpu.multi_Kd p,
            copyPairs ((List.range p.Nd.prod).map
              (fun i => xd.getD i 0 * p.sn.data.getD i 0))
              (NUFFT_cpu.copyIdx p)
              (List.replicate ((NUFFT_cpu.multi_Kd p).prod) 0)⟩ : Arr K)).data.getD
          (e.2.1 * (NUFFT_cpu.multi_prodKd p).tail.prod +
            i % (NUFFT_cpu.multi_prodKd p).tail.prod) 0
      else 0)).sum)

/-- A concrete single-channel operator with `Nd=(16,16)`, `Kd=(32,32)`,
`M=100` (zero interpolation matrix, constant scaling). -/
def p16 : Plan GQ where
  Nd := [16, 16]
  Kd := [32, 32]
  ndims := 2
  ft_axes := [0, 1]
  batch := 1
  parallel_flag := false
  sn := ⟨[16, 16], List.replicate 256 1⟩
  sp := ⟨100, 1024, []⟩
  spH := ⟨1024, 100, []⟩
  M := 100
  NdCPUorder := (preindexCopy [16, 16] [32, 32]).1
  KdCPUorder := (preindexCopy [16, 16] [32, 32]).2.1
  nelem := (preindexCopy [16, 16] [32, 32]).2.2
  W := none
  wCount := 0
  root := gqRoot
  invN := gqInvN
  csqrt := gqCsqrt

/-- The same geometry planned with `batch = 4`. -/
def q16 : Plan GQ where
  Nd := [16, 16]
  Kd := [32, 32]
  ndims := 2
  ft_axes := [0, 1]
  batch := 4
  parallel_flag := true
  sn := ⟨[16, 16, 1], List.replicate 256 1⟩
  sp := ⟨100, 1024, []⟩
  spH := ⟨1024, 100, []⟩
  M := 100
  NdCPUorder := (preindexCopy [16, 16] [32, 32]).1
  KdCPUorder := (preindexCopy [16, 16] [32, 32]).2.1
  nelem := (preindexCopy [16, 16] [32, 32]).2.2
  W := none
  wCount := 0
  root := gqRoot
  invN := gqInvN
  csqrt := gqCsqrt

/-- A numpy complex floating dtype: `complex64` or `complex128`. -/
inductive NPDtype where
  | c64 : NPDtype
  | c128 : NPDtype
deriving DecidableEq

/-- numpy binary type promotion between the two complex dtypes. -/
def promote : NPDtype → NPDtype → NPDtype
  | NPDtype.c64, NPDtype.c64 => NPDtype.c64
  | _, _ => NPDtype.c128

/-- dtype of `numpy.fft.fftn` / `numpy.fft.ifftn` output: the pocketfft
backend computes in double precision and always returns `complex128`,
whatever the input dtype. -/
def fftnD (inD : NPDtype) : NPDtype := NPDtype.c128

/-- dtype of `x2xx` / `xx2x` (`x * self.sn`; `sn` is cast to the plan dtype
at `plan()` time, line 97). -/
def x2xxD (xD snD : NPDtype) : NPDtype := promote xD snD

/-- dtype of `xx2k`: the zero buffer is allocated with the plan dtype
(line 252) and the scatter assignment value-casts into it, then
`numpy.fft.fftn` runs on the buffer. -/
def xx2kD (planD : NPDtype) : NPDtype := fftnD planD

/-- dtype of a scipy sparse `dot`: binary promotion of the matrix and
vector dtypes (reshape in `k2vec`/`vec2k` keeps the dtype). -/
def spDotD (aD vD : NPDtype) : NPDtype := promote aD vD

/-- dtype of `forward = k2y ∘ xx2k ∘ x2xx` (the scatter inside `xx2k`
casts the scaled input into the plan-dtype buffer). -/
def forwardD (planD spD : NPDtype) : NPDtype := spDotD spD (xx2kD planD)

/-- dtype of `k2xx`: `ifftn` output (complex128) is gathered into a fresh
zero buffer of the plan dtype (line 312), value-casting back down. -/
def k2xxD (planD kD : NPDtype) : NPDtype := planD

/-- dtype of `adjoint = xx2x ∘ k2xx ∘ y2k`. -/
def adjointD (planD snD spHD yD : NPDtype) : NPDtype :=
  x2xxD (k2xxD planD (fftnD (spDotD spHD yD))) snD

/-- dtype of `selfadjoint = xx2x ∘ k2xx ∘ k2y2k ∘ xx2k ∘ x2xx`. -/
def selfadjointD (planD snD spD spHD : NPDtype) : NPDtype :=
  x2xxD (k2xxD planD (fftnD (spDotD spHD (spDotD spD (xx2kD planD))))) snD

section PlanModelDefs

variable {K : Type} [CommRing K] [StarRing K] [DecidableEq K]

/-- The shape of the sample-coordinate array `om` (an `M × ndims` float
array; its values feed only the out-of-scope kernel numerics). -/
structure OmShape where
  rows : ℕ
  cols : ℕ
deriving DecidableEq

/-- The fields of the dict returned by the interpolator builder. -/
structure BuilderSt (K : Type) where
  p : SpMat K
  sn : Arr K
  Nd : List ℕ
  Kd : List ℕ
  M : ℕ

/-- Modelled from the spec: `helper.plan(om, Nd, Kd, Jd)` — the
interpolator builder lives in the `helper` module, which is not among the
sources under verification.  Per the spec it raises `ConfigurationError`
when the dimension counts of `Nd`, `Kd`, `Jd` disagree, when some
`Kd[i] < Nd[i]`, or when `om.shape[1] ≠ len(Nd)`; on success it returns
the dict `{p, sn, Nd, Kd, M}`.  The kernel derivation itself is out of
scope (the spec requires only shape conformance), so the returned matrix
and scaling factors carry shapes with placeholder values. -/
def helperPlan (om : OmShape) (Nd Kd Jd : List ℕ) : Except Err (BuilderSt K) :=
  if Nd.length = Kd.length ∧ Nd.length = Jd.length ∧
      (∀ nk ∈ Nd.zip Kd, nk.1 ≤ nk.2) ∧ om.cols = Nd.length then
    .ok ⟨⟨om.rows, Kd.prod, []⟩, ⟨Nd, List.replicate Nd.prod 1⟩, Nd, Kd, om.rows⟩
  else .error Err.configurationError

/-- The mutable attributes of a `NUFFT_cpu` object that `plan()` touches;
`none` means the attribute has not been assigned. -/
structure ObjState (K : Type) where
  ndims : Option ℕ
  ft_axes : Option (List ℕ)
  st : Option (BuilderSt K)
  planState : Option (Plan K)

/-- `NUFFT_cpu.plan(om, Nd, Kd, Jd, ft_axes, batch)` as a state
transformer: `self.ndims` and `self.ft_axes` are assigned before the
builder call (lines 84–87), the builder may raise, and then the remaining
plan state is assigned (batch handling per lines 100–124: `batch=None`
gives `parallel_flag=0, batch=1`; any provided `batch` — zero included —
gives `parallel_flag=1` with no validation).  Returns 0 on success. -/
def planSteps (root invN : ℕ → K) (csqrt : K → K) (obj : ObjState K) (om : OmShape)
    (Nd Kd Jd : List ℕ) (ft_axes : Option (List ℕ)) (batch : Option ℕ) :
    ObjState K × Except Err ℤ :=
  let obj1 : ObjState K := { obj with ndims := some Nd.length }
  let fta := ft_axes.getD (List.range Nd.length)
  let obj2 : ObjState K := { obj1 with ft_axes := some fta }
  match helperPlan om Nd Kd Jd with
  | .error e => (obj2, .error e)
  | .ok st =>
    let batchv := match batch with
      | none => 1
      | some b => b
    let pflag := match batch with
      | none => false
      | some _ => true
    let pl : Plan K := {
      Nd := st.Nd, Kd := st.Kd, ndims := Nd.length, ft_axes := fta,
      batch := batchv, parallel_flag := pflag,
      sn := if pflag then ⟨st.Nd ++ [1], st.sn.data⟩ else st.sn,
      sp := st.p, spH := st.p.getH, M := st.M,
      NdCPUorder := (preindexCopy st.Nd st.Kd).1,
      KdCPUorder := (preindexCopy st.Nd st.Kd).2.1,
      nelem := (preindexCopy st.Nd st.Kd).2.2,
      W := none, wCount := 0,
      root := root, invN := invN, csqrt := csqrt }
    ({ obj2 with st := some st, planState := some pl }, .ok 0)

end PlanModelDefs

/-- The operator `pW` with its weighting cache already computed. -/
def pW9 : Plan GQ := { pW with W := some ⟨[2], [1, 1]⟩ }

section IndexLemmas

theorem unflatten_length (sh : List ℕ) (n : ℕ) : (unflatten sh n).length = sh.length := by
  induction sh generalizing n with
  | nil => rfl
  | cons s sh ih => simp [unflatten, ih]

/-- Every coordinate of `unflatten sh n` is below the corresponding dim
when `n < sh.prod`. -/
theorem unflatten_bounded (sh : List ℕ) (n : ℕ) (h : n < sh.prod) :
    ∀ d, (unflatten sh n).getD d 0 < sh.getD d 1 := by
  induction sh generalizing n with
  | nil =>
    intro d; simp [unflatten]
  | cons s sh ih =>
    intro d
    have hsh : 0 < sh.prod := by
      rcases Nat.eq_zero_or_pos sh.prod with h0 | h0
      · rw [List.prod_cons, h0, Nat.mul_zero] at h; omega
      · exact h0
    cases d with
    | zero =>
      simp only [unflatten, List.getD_cons_zero]
      rw [List.prod_cons] at h
      exact Nat.div_lt_of_lt_mul (by rwa [Nat.mul_comm] at h)
    | succ d =>
      simp only [unflatten, List.getD_cons_succ]
      exact ih _ (Nat.mod_lt _ hsh) d

theorem flatten_unflatten (sh : List ℕ) (n : ℕ) (h : n < sh.prod) :
    flatten sh (unflatten sh n) = n := by
  induction sh generalizing n with
  | nil =>
    simp only [List.prod_nil] at h
    have : n = 0 := by omega
    subst this; rfl
  | cons s sh ih =>
    have hsh : 0 < sh.prod := by
      rcases Nat.eq_zero_or_pos sh.prod with h0 | h0
      · rw [List.prod_cons, h0, Nat.mul_zero] at h; omega
      · exact h0
    simp only [unflatten, flatten]
    rw [ih _ (Nat.mod_lt _ hsh)]
    exact Nat.div_add_mod' n sh.prod

/-- A multi-index that is pointwise below the shape flattens below the size. -/
theorem flatten_lt (sh idx : List ℕ) (hlen : idx.length = sh.length)
    (hb : ∀ d, idx.getD d 0 < sh.getD d 1) :
    flatten sh idx < sh.prod := by
  induction sh generalizing idx with
  | nil =>
    cases idx with
    | nil => simp [flatten, List.prod_nil]
    | cons i idx => simp at hlen
  | cons s sh ih =>
    cases idx with
    | nil => simp at hlen
    | cons i idx =>
      have hi : i < s := by have := hb 0; simpa using this
      have hrec : flatten sh idx < sh.prod := by
        apply ih
        · simpa using hlen
        · intro d; have := hb (d + 1); simpa using this
      calc flatten (s :: sh) (i :: idx) = i * sh.prod + flatten sh idx := rfl
        _ < i * sh.prod + sh.prod := by omega
        _ = (i + 1) * sh.prod := by ring
        _ ≤ s * sh.prod := Nat.mul_le_mul_right _ (by omega)
        _ = (s :: sh).prod := by rw [List.prod_cons]

theorem unflatten_flatten (sh idx : List ℕ) (hlen : idx.length = sh.length)
    (hb : ∀ d, idx.getD d 0 < sh.getD d 1) :
    unflatten sh (flatten sh idx) = idx := by
  induction sh generalizing idx with
  | nil => cases idx with
    | nil => rfl
    | cons i idx => simp at hlen
  | cons s sh ih =>
    cases idx with
    | nil => simp at hlen
    | cons i idx =>
      have hflt : flatten sh idx < sh.prod := by
        apply flatten_lt
        · simpa using hlen
        · intro d; have := hb (d + 1); simpa using this
      have hp : 0 < sh.prod := Nat.lt_of_le_of_lt (Nat.zero_le _) hflt
      simp only [flatten, unflatten]
      have h1 : (i * sh.prod + flatten sh idx) / sh.prod = i := by
        rw [Nat.add_comm, Nat.add_mul_div_right _ _ hp, Nat.div_eq_of_lt hflt, Nat.zero_add]
      have h2 : (i * sh.prod + flatten sh idx) % sh.prod = flatten sh idx := by
        rw [Nat.add_comm, Nat.add_mul_mod_self_right, Nat.mod_eq_of_lt hflt]
      rw [h1, h2, ih _ (by simpa using hlen) (fun d => by have := hb (d + 1); simpa using this)]

end IndexLemmas

section StageLemmas

variable {K : Type} [CommRing K] [StarRing K] [DecidableEq K]

theorem getD_set_self {α : Type} (l : List α) (n : ℕ) (a d : α)
    (h : n < l.length) : (l.set n a).getD n d = a := by
  rw [List.getD_eq_getElem?_getD, List.getElem?_set_self]
  · simp
  · exact h

theorem getD_set_ne {α : Type} (l : List α) (n m : ℕ) (a d : α)
    (h : n ≠ m) : (l.set n a).getD m d = l.getD m d := by
  rw [List.getD_eq_getElem?_getD, List.getElem?_set_ne h, ← List.getD_eq_getElem?_getD]

theorem bcastRev_self (s : List ℕ) : bcastRev s s = some s := by
  induction s with
  | nil => rfl
  | cons a s ih => simp [bcastRev, ih]

theorem bcast2_self (s : List ℕ) : bcast2 s s = some s := by
  simp [bcast2, bcastRev_self]

theorem zipWith_mask_eq (s idx : List ℕ) (hlen : idx.length = s.length)
    (hb : ∀ d, idx.getD d 0 < s.getD d 1) :
    List.zipWith (fun sd c => if sd = 1 then 0 else c) s idx = idx := by
  induction s generalizing idx with
  | nil => cases idx with
    | nil => rfl
    | cons i idx => simp at hlen
  | cons s0 s ih =>
    cases idx with
    | nil => simp at hlen
    | cons i0 idx =>
      have h0 : i0 < s0 := by have := hb 0; simpa using this
      simp only [List.zipWith_cons_cons]
      rw [ih idx (by simpa using hlen) (fun d => by have := hb (d + 1); simpa using this)]
      by_cases h1 : s0 = 1
      · subst h1; simp; omega
      · simp [h1]

theorem bGet_self (s : List ℕ) (data : List K) (i : ℕ) (hi : i < s.prod) :
    bGet s data (unflatten s i) = data.getD i 0 := by
  unfold bGet
  rw [unflatten_length, Nat.sub_self, List.drop_zero,
    zipWith_mask_eq s _ (unflatten_length s i) (unflatten_bounded s i hi),
    flatten_unflatten s i hi]

/-- Elementwise multiplication of equal-shaped arrays. -/
theorem arrMul_eq_shapes (x y : Arr K) (h : x.shape = y.shape) :
    arrMul x y = .ok ⟨x.shape, (List.range x.shape.prod).map
      (fun i => x.data.getD i 0 * y.data.getD i 0)⟩ := by
  unfold arrMul
  rw [h, bcast2_self, ← h]
  refine congrArg _ (congrArg _ ?_)
  refine List.map_congr_left (fun i hi => ?_)
  rw [List.mem_range] at hi
  rw [bGet_self x.shape x.data i hi, h, bGet_self y.shape y.data i (h ▸ hi)]

/-- Characterization of sequential fancy-index assignment when the
destination indices are distinct and in bounds. -/
theorem copyPairs_getD (src : List K) (pairs : List (ℕ × ℕ)) (d0 : List K)
    (hnodup : (pairs.map Prod.snd).Nodup)
    (hbound : ∀ pr ∈ pairs, pr.2 < d0.length) (i : ℕ) :
    (copyPairs src pairs d0).getD i 0 =
      match pairs.find? (fun pr => pr.2 == i) with
      | some pr => src.getD pr.1 0
      | none => d0.getD i 0 := by
  induction pairs generalizing d0 with
  | nil => simp [copyPairs]
  | cons pr ps ih =>
    have hlen : (d0.set pr.2 (src.getD pr.1 0)).length = d0.length := by
      simp
    have hstep : copyPairs src (pr :: ps) d0 =
        copyPairs src ps (d0.set pr.2 (src.getD pr.1 0)) := rfl
    rw [hstep, ih (d0.set pr.2 (src.getD pr.1 0))
      (by simpa using hnodup.of_cons)
      (fun q hq => by rw [hlen]; exact hbound q (List.mem_cons_of_mem _ hq))]
    by_cases hi : pr.2 = i
    · subst hi
      have hfind : List.find? (fun q => q.2 == pr.2) (pr :: ps) = some pr :=
        List.find?_cons_of_pos _ (by simp)
      rw [hfind]
      have hnone : List.find? (fun q => q.2 == pr.2) ps = none := by
        rw [List.find?_eq_none]
        intro q hq
        simp only [beq_iff_eq]
        intro hcon
        have : pr.2 ∈ ps.map Prod.snd := by
          rw [← hcon]; exact List.mem_map_of_mem Prod.snd hq
        exact (List.nodup_cons.mp (by simpa using hnodup)).1 this
      rw [hnone]
      exact getD_set_self d0 _ _ _ (hbound pr (List.mem_cons_self pr ps))
    · have hskip : List.find? (fun q => q.2 == i) (pr :: ps) =
          List.find? (fun q => q.2 == i) ps :=
        List.find?_cons_of_neg _ (by simp [hi])
      rw [hskip]
      cases hf : List.find? (fun q => q.2 == i) ps with
      | some q => rfl
      | none =>
        simp only
        exact getD_set_ne d0 _ _ _ _ hi

end StageLemmas

theorem except_bind_assoc {ε α β γ : Type} (m : Except ε α) (f : α → Except ε β)
    (g : β → Except ε γ) : (m >>= f) >>= g = m >>= fun a => f a >>= g := by
  cases m <;> rfl

theorem ok_bind {ε α β : Type} (a : α) (f : α → Except ε β) :
    (Except.ok a : Except ε α) >>= f = f a := rfl

theorem error_bind {ε α β : Type} (e : ε) (f : α → Except ε β) :
    (Except.error e : Except ε α) >>= f = Except.error e := rfl

/-- In-range `getD` is independent of the default. -/
theorem getD_default_eq {α : Type} (l : List α) (n : ℕ) (d1 d2 : α)
    (h : n < l.length) : l.getD n d1 = l.getD n d2 := by
  rw [List.getD_eq_getElem l d1 h, List.getD_eq_getElem l d2 h]

theorem map_range_getD {α : Type} (n : ℕ) (f : ℕ → α) (i : ℕ) (d : α) (h : i < n) :
    ((List.range n).map f).getD i d = f i := by
  rw [List.getD_eq_getElem _ _ (by simpa using h)]
  simp

theorem zipWith_getD {α : Type} (f : ℕ → ℕ → α) (l1 l2 : List ℕ) (i : ℕ) (d : α)
    (h1 : i < l1.length) (h2 : i < l2.length) :
    (List.zipWith f l1 l2).getD i d = f (l1.getD i 0) (l2.getD i 0) := by
  induction l1 generalizing l2 i with
  | nil => simp at h1
  | cons a l1 ih =>
    cases l2 with
    | nil => simp at h2
    | cons b l2 =>
      cases i with
      | zero => rfl
      | succ i =>
        simp only [List.zipWith_cons_cons, List.getD_cons_succ]
        exact ih l2 i (by simpa using h1) (by simpa using h2)


section InnerLemmas

variable {K : Type} [CommRing K] [StarRing K] [DecidableEq K]

theorem innerL_map_range (n : ℕ) (f : ℕ → K) (v : List K) :
    innerL ((List.range n).map f) v =
      ∑ i ∈ Finset.range n, f i * star (v.getD i 0) := by
  unfold innerL
  rw [List.length_map, List.length_range]
  refine Finset.sum_congr rfl (fun i hi => ?_)
  rw [map_range_getD n f i 0 (Finset.mem_range.mp hi)]

end InnerLemmas

section Preindex


theorem preindexCopy_eq (Nd Kd : List ℕ) :
    preindexCopy Nd Kd =
      (List.range Nd.prod, (List.range Nd.prod).map (kdIndex Nd Kd), Nd.prod) := rfl

theorem zip_le_getD (Nd Kd : List ℕ) (hlen : Kd.length = Nd.length)
    (hle : ∀ nk ∈ Nd.zip Kd, nk.1 ≤ nk.2) (d : ℕ) (hd : d < Nd.length) :
    Nd.getD d 0 ≤ Kd.getD d 0 := by
  have hd2 : d < Kd.length := hlen ▸ hd
  rw [List.getD_eq_getElem Nd 0 hd, List.getD_eq_getElem Kd 0 hd2]
  have hm : (Nd[d], Kd[d]) ∈ Nd.zip Kd := by
    have hdz : d < (Nd.zip Kd).length := by
      simp [List.length_zip]
      omega
    have hz : (Nd.zip Kd)[d] = (Nd[d], Kd[d]) := List.getElem_zip
    rw [← hz]
    exact List.getElem_mem _
  exact hle _ hm

theorem kdIndex_idx_length (Nd Kd : List ℕ) (hlen : Kd.length = Nd.length) (i : ℕ) :
    (List.zipWith (· + ·) (unflatten Nd i)
      (List.zipWith (fun k n => (k - n) / 2) Kd Nd)).length = Kd.length := by
  simp [List.length_zipWith, unflatten_length]
  omega

theorem kdIndex_idx_bounded (Nd Kd : List ℕ) (hlen : Kd.length = Nd.length)
    (hle : ∀ nk ∈ Nd.zip Kd, nk.1 ≤ nk.2) (i : ℕ) (hi : i < Nd.prod) (d : ℕ) :
    (List.zipWith (· + ·) (unflatten Nd i)
      (List.zipWith (fun k n => (k - n) / 2) Kd Nd)).getD d 0 < Kd.getD d 1 := by
  by_cases hd : d < Nd.length
  · have hd2 : d < Kd.length := hlen ▸ hd
    rw [zipWith_getD _ _ _ _ _ (by rw [unflatten_length]; omega)
        (by simp [List.length_zipWith]; omega),
      zipWith_getD _ _ _ _ _ (by omega) (by omega)]
    have hu : (unflatten Nd i).getD d 0 < Nd.getD d 0 := by
      have := unflatten_bounded Nd i hi d
      rwa [getD_default_eq Nd d 1 0 hd] at this
    have hnk : Nd.getD d 0 ≤ Kd.getD d 0 := zip_le_getD Nd Kd hlen hle d hd
    have hdiv : (Kd.getD d 0 - Nd.getD d 0) / 2 ≤ Kd.getD d 0 - Nd.getD d 0 :=
      Nat.div_le_self _ 2
    rw [getD_default_eq Kd d 1 0 hd2]
    omega
  · rw [List.getD_eq_default _ _ (by simp [List.length_zipWith, unflatten_length]; omega)]
    rw [List.getD_eq_default _ _ (by omega)]
    omega

theorem kdIndex_lt (Nd Kd : List ℕ) (hlen : Kd.length = Nd.length)
    (hle : ∀ nk ∈ Nd.zip Kd, nk.1 ≤ nk.2) (i : ℕ) (hi : i < Nd.prod) :
    kdIndex Nd Kd i < Kd.prod :=
  flatten_lt Kd _ (kdIndex_idx_length Nd Kd hlen i)
    (kdIndex_idx_bounded Nd Kd hlen hle i hi)

theorem kdIndex_inj (Nd Kd : List ℕ) (hlen : Kd.length = Nd.length)
    (hle : ∀ nk ∈ Nd.zip Kd, nk.1 ≤ nk.2) (i j : ℕ) (hi : i < Nd.prod)
    (hj : j < Nd.prod) (h : kdIndex Nd Kd i = kdIndex Nd Kd j) : i = j := by
  have hvi := unflatten_flatten Kd _ (kdIndex_idx_length Nd Kd hlen i)
    (kdIndex_idx_bounded Nd Kd hlen hle i hi)
  have hvj := unflatten_flatten Kd _ (kdIndex_idx_length Nd Kd hlen j)
    (kdIndex_idx_bounded Nd Kd hlen hle j hj)
  have hv : List.zipWith (· + ·) (unflatten Nd i)
        (List.zipWith (fun k n => (k - n) / 2) Kd Nd) =
      List.zipWith (· + ·) (unflatten Nd j)
        (List.zipWith (fun k n => (k - n) / 2) Kd Nd) := by
    rw [← hvi, ← hvj]
    exact congrArg (unflatten Kd) h
  have hidx : unflatten Nd i = unflatten Nd j := by
    apply List.ext_getElem (by simp [unflatten_length])
    intro d hd1 hd2
    rw [unflatten_length] at hd1 hd2
    have hod : d < (List.zipWith (fun k n => (k - n) / 2) Kd Nd).length := by
      simp [List.length_zipWith]; omega
    have h1 := congrArg (fun l => l.getD d 0) hv
    simp only at h1
    rw [zipWith_getD _ _ _ _ _ (by rw [unflatten_length]; omega) hod,
      zipWith_getD _ _ _ _ _ (by rw [unflatten_length]; omega) hod] at h1
    have h2 : (unflatten Nd i).getD d 0 = (unflatten Nd j).getD d 0 := by omega
    rw [List.getD_eq_getElem _ 0 (by rwa [unflatten_length]),
      List.getD_eq_getElem _ 0 (by rwa [unflatten_length])] at h2
    exact h2
  calc i = flatten Nd (unflatten Nd i) := (flatten_unflatten Nd i hi).symm
    _ = flatten Nd (unflatten Nd j) := by rw [hidx]
    _ = j := flatten_unflatten Nd j hj

end Preindex

section PairLists


theorem mul_add_lt_of_lt (t P bat B : ℕ) (ht : t < P) (hb : bat < B) :
    t * B + bat < P * B := by
  calc t * B + bat < t * B + B := by omega
    _ = (t + 1) * B := by ring
    _ ≤ P * B := Nat.mul_le_mul_right B (by omega)

theorem batchPairs_mem_iff (B P : ℕ) (f : ℕ → ℕ) (pr : ℕ × ℕ) :
    pr ∈ batchPairs B P f ↔
      ∃ t, t < P ∧ ∃ bat, bat < B ∧ pr = (t * B + bat, f t * B + bat) := by
  unfold batchPairs
  simp only [List.mem_flatMap, List.mem_map, List.mem_range]
  constructor
  · rintro ⟨bat, hb, t, ht, rfl⟩
    exact ⟨t, ht, bat, hb, rfl⟩
  · rintro ⟨t, ht, bat, hb, rfl⟩
    exact ⟨bat, hb, t, ht, rfl⟩

theorem batchPairs_bound (B P KP : ℕ) (f : ℕ → ℕ) (hf : ∀ t, t < P → f t < KP) :
    ∀ pr ∈ batchPairs B P f, pr.1 < P * B ∧ pr.2 < KP * B := by
  intro pr hpr
  obtain ⟨t, ht, bat, hb, rfl⟩ := (batchPairs_mem_iff B P f pr).mp hpr
  exact ⟨mul_add_lt_of_lt t P bat B ht hb,
    mul_add_lt_of_lt (f t) KP bat B (hf t ht) hb⟩

theorem flatMap_mul_add_nodup (B P : ℕ) (g : ℕ → ℕ)
    (hg : ∀ t, t < P → ∀ u, u < P → g t = g u → t = u) :
    ((List.range B).flatMap (fun bat =>
      (List.range P).map (fun t => g t * B + bat))).Nodup := by
  rw [List.nodup_flatMap]
  constructor
  · intro bat hbat
    rw [List.mem_range] at hbat
    refine (List.nodup_map_iff_inj_on (List.nodup_range P)).mpr ?_
    intro t ht u hu he
    rw [List.mem_range] at ht hu
    have : g t * B = g u * B := by omega
    have hB : 0 < B := by omega
    exact hg t ht u hu (Nat.eq_of_mul_eq_mul_right hB this)
  · refine List.Pairwise.imp_of_mem ?_ (List.pairwise_lt_range B)
    intro b1 b2 hm1 hm2 hlt x hx1 hx2
    rw [List.mem_range] at hm1 hm2
    simp only [List.mem_map, List.mem_range, Function.comp] at hx1 hx2
    obtain ⟨t1, ht1, he1⟩ := hx1
    obtain ⟨t2, ht2, he2⟩ := hx2
    have h1 : x % B = b1 := by
      rw [← he1, Nat.add_comm, Nat.add_mul_mod_self_right]
      exact Nat.mod_eq_of_lt (by omega)
    have h2 : x % B = b2 := by
      rw [← he2, Nat.add_comm, Nat.add_mul_mod_self_right]
      exact Nat.mod_eq_of_lt (by omega)
    omega

theorem batchPairs_map_snd (B P : ℕ) (f : ℕ → ℕ) :
    (batchPairs B P f).map Prod.snd =
      (List.range B).flatMap (fun bat => (List.range P).map (fun t => f t * B + bat)) := by
  unfold batchPairs
  rw [List.map_flatMap]
  refine congrArg _ (funext fun bat => ?_)
  rw [List.map_map]
  rfl

theorem batchPairs_map_fst (B P : ℕ) (f : ℕ → ℕ) :
    (batchPairs B P f).map Prod.fst =
      (List.range B).flatMap (fun bat => (List.range P).map (fun t => t * B + bat)) := by
  unfold batchPairs
  rw [List.map_flatMap]
  refine congrArg _ (funext fun bat => ?_)
  rw [List.map_map]
  rfl

theorem batchPairs_snd_nodup (B P : ℕ) (f : ℕ → ℕ)
    (hf : ∀ t, t < P → ∀ u, u < P → f t = f u → t = u) :
    ((batchPairs B P f).map Prod.snd).Nodup := by
  rw [batchPairs_map_snd]
  exact flatMap_mul_add_nodup B P f hf

theorem batchPairs_fst_nodup (B P : ℕ) (f : ℕ → ℕ) :
    ((batchPairs B P f).map Prod.fst).Nodup := by
  rw [batchPairs_map_fst]
  exact flatMap_mul_add_nodup B P (fun t => t) (fun t _ u _ h => h)

end PairLists

namespace NUFFT_cpu

section PlanFacts

variable {K : Type} [CommRing K] [StarRing K] [DecidableEq K] (p : Plan K)

theorem wf_orders (hWF : PlanWF p) :
    p.NdCPUorder = List.range p.Nd.prod ∧
    p.KdCPUorder = (List.range p.Nd.prod).map (kdIndex p.Nd p.Kd) ∧
    p.nelem = p.Nd.prod := by
  obtain ⟨-, -, -, -, -, -, -, -, -, -, -, -, -, h14⟩ := hWF
  rw [preindexCopy_eq, Prod.ext_iff, Prod.ext_iff] at h14
  exact ⟨h14.1, h14.2.1, h14.2.2⟩

theorem wf_kd_lt (hWF : PlanWF p) :
    ∀ t, t < p.Nd.prod → kdIndex p.Nd p.Kd t < p.Kd.prod := by
  obtain ⟨-, hlen, hle, -⟩ := hWF
  exact fun t ht => kdIndex_lt p.Nd p.Kd hlen hle t ht

theorem wf_kd_inj (hWF : PlanWF p) :
    ∀ t, t < p.Nd.prod → ∀ u, u < p.Nd.prod →
      kdIndex p.Nd p.Kd t = kdIndex p.Nd p.Kd u → t = u := by
  obtain ⟨-, hlen, hle, -⟩ := hWF
  exact fun t ht u hu h => kdIndex_inj p.Nd p.Kd hlen hle t u ht hu h

theorem copyIdx_eq_batchPairs (hWF : PlanWF p) :
    copyIdx p = batchPairs p.batch p.Nd.prod (kdIndex p.Nd p.Kd) := by
  obtain ⟨hNdO, hKdO, -⟩ := wf_orders p hWF
  unfold copyIdx batchPairs
  rw [hNdO, hKdO]
  refine congrArg _ (funext fun bat => ?_)
  have hz : (List.range p.Nd.prod).zip ((List.range p.Nd.prod).map (kdIndex p.Nd p.Kd))
      = (List.range p.Nd.prod).map (fun t => (t, kdIndex p.Nd p.Kd t)) := by
    have := List.zip_map' id (kdIndex p.Nd p.Kd) (List.range p.Nd.prod)
    simpa using this
  rw [hz, List.map_map]
  rfl

theorem gatherIdx_eq_swap :
    gatherIdx p = (copyIdx p).map (fun pr => (pr.2, pr.1)) := by
  unfold gatherIdx copyIdx
  rw [List.map_flatMap]
  refine congrArg _ (funext fun bat => ?_)
  rw [List.map_map]
  rfl

theorem copyIdx_snd_nodup (hWF : PlanWF p) : ((copyIdx p).map Prod.snd).Nodup := by
  rw [copyIdx_eq_batchPairs p hWF]
  exact batchPairs_snd_nodup _ _ _ (wf_kd_inj p hWF)

theorem gatherIdx_snd_nodup (hWF : PlanWF p) : ((gatherIdx p).map Prod.snd).Nodup := by
  rw [gatherIdx_eq_swap, List.map_map]
  have : (Prod.snd ∘ fun pr : ℕ × ℕ => (pr.2, pr.1)) = Prod.fst := rfl
  rw [this, copyIdx_eq_batchPairs p hWF]
  exact batchPairs_fst_nodup _ _ _

theorem copyIdx_bound (hWF : PlanWF p) :
    ∀ pr ∈ copyIdx p, pr.1 < p.Nd.prod * p.batch ∧ pr.2 < p.Kd.prod * p.batch := by
  rw [copyIdx_eq_batchPairs p hWF]
  exact batchPairs_bound _ _ _ _ (wf_kd_lt p hWF)

theorem gatherIdx_bound (hWF : PlanWF p) :
    ∀ pr ∈ gatherIdx p, pr.1 < p.Kd.prod * p.batch ∧ pr.2 < p.Nd.prod * p.batch := by
  rw [gatherIdx_eq_swap]
  intro pr hpr
  rw [List.mem_map] at hpr
  obtain ⟨q, hq, rfl⟩ := hpr
  have hb := copyIdx_bound p hWF q hq
  exact ⟨hb.2, hb.1⟩

theorem multi_Nd_prod (hWF : PlanWF p) : (multi_Nd p).prod = p.Nd.prod * p.batch := by
  obtain ⟨-, -, -, -, -, -, hb1, -⟩ := hWF
  unfold multi_Nd
  cases hpf : p.parallel_flag with
  | false => simp [hb1 hpf]
  | true => simp

theorem multi_Kd_prod (hWF : PlanWF p) : (multi_Kd p).prod = p.Kd.prod * p.batch := by
  obtain ⟨-, -, -, -, -, -, hb1, -⟩ := hWF
  unfold multi_Kd
  cases hpf : p.parallel_flag with
  | false => simp [hb1 hpf]
  | true => simp

theorem multi_M_prod (hWF : PlanWF p) : (multi_M p).prod = p.M * p.batch := by
  obtain ⟨-, -, -, -, -, -, hb1, -⟩ := hWF
  unfold multi_M
  cases hpf : p.parallel_flag with
  | false => simp [hb1 hpf]
  | true => simp

theorem multi_prodKd_prod (hWF : PlanWF p) :
    (multi_prodKd p).prod = p.Kd.prod * p.batch := by
  obtain ⟨-, -, -, -, -, -, hb1, -⟩ := hWF
  unfold multi_prodKd
  cases hpf : p.parallel_flag with
  | false => simp [hb1 hpf]
  | true => simp

theorem multi_Kd_axes (hWF : PlanWF p) : ∀ a ∈ p.ft_axes, a < (multi_Kd p).length := by
  obtain ⟨-, hKlen, -, -, hax, -⟩ := hWF
  intro a ha
  unfold multi_Kd
  cases hpf : p.parallel_flag with
  | false => simpa [hKlen] using hax a ha
  | true =>
    simp only [if_pos]
    rw [List.length_append]
    have := hax a ha
    simp
    omega

end PlanFacts

section StageOk

variable {K : Type} [CommRing K] [StarRing K] [DecidableEq K]

theorem reshapeTo_ok (sh : List ℕ) (x : Arr K) (h : sh.prod = x.shape.prod) :
    reshapeTo sh x = .ok ⟨sh, x.data⟩ := by
  unfold reshapeTo
  rw [if_pos h]

theorem fftn_ok (root : ℕ → K) (axes : List ℕ) (x : Arr K)
    (hax : ∀ a ∈ axes, a < x.shape.length) :
    fftn root axes x = .ok (axes.foldl (fun acc a =>
      dft1Core (fun t => root (acc.shape.getD a 0) ^ t) a acc) x) := by
  unfold fftn
  rw [if_pos hax]

theorem ifftn_ok (root invN : ℕ → K) (axes : List ℕ) (x : Arr K)
    (hax : ∀ a ∈ axes, a < x.shape.length) :
    ifftn root invN axes x = .ok (axes.foldl (fun acc a =>
      ifft1Core root invN a acc) x) := by
  unfold ifftn
  rw [if_pos hax]

theorem dft1Core_shape (w : ℕ → K) (a : ℕ) (x : Arr K) :
    (dft1Core w a x).shape = x.shape := rfl

theorem dft1Core_length (w : ℕ → K) (a : ℕ) (x : Arr K) :
    (dft1Core w a x).data.length = x.shape.prod := by
  simp [dft1Core]

theorem ifft1Core_shape (root invN : ℕ → K) (a : ℕ) (x : Arr K) :
    (ifft1Core root invN a x).shape = x.shape := rfl

theorem ifft1Core_length (root invN : ℕ → K) (a : ℕ) (x : Arr K) :
    (ifft1Core root invN a x).data.length = x.shape.prod := by
  simp [ifft1Core, dft1Core]

theorem fft_fold_shape (root : ℕ → K) (axes : List ℕ) (x : Arr K) :
    (axes.foldl (fun acc a =>
      dft1Core (fun t => root (acc.shape.getD a 0) ^ t) a acc) x).shape = x.shape := by
  induction axes generalizing x with
  | nil => rfl
  | cons a as ih => rw [List.foldl_cons, ih, dft1Core_shape]

theorem fft_fold_length (root : ℕ → K) (axes : List ℕ) (x : Arr K)
    (hx : x.data.length = x.shape.prod) :
    (axes.foldl (fun acc a =>
      dft1Core (fun t => root (acc.shape.getD a 0) ^ t) a acc) x).data.length
      = x.shape.prod := by
  induction axes generalizing x with
  | nil => exact hx
  | cons a as ih =>
    rw [List.foldl_cons, ih _ (by rw [dft1Core_length, dft1Core_shape]), dft1Core_shape]

theorem ifft_fold_shape (root invN : ℕ → K) (axes : List ℕ) (x : Arr K) :
    (axes.foldl (fun acc a => ifft1Core root invN a acc) x).shape = x.shape := by
  induction axes generalizing x with
  | nil => rfl
  | cons a as ih => rw [List.foldl_cons, ih, ifft1Core_shape]

theorem ifft_fold_length (root invN : ℕ → K) (axes : List ℕ) (x : Arr K)
    (hx : x.data.length = x.shape.prod) :
    (axes.foldl (fun acc a => ifft1Core root invN a acc) x).data.length
      = x.shape.prod := by
  induction axes generalizing x with
  | nil => exact hx
  | cons a as ih =>
    rw [List.foldl_cons, ih _ (by rw [ifft1Core_length, ifft1Core_shape]), ifft1Core_shape]

theorem copyPairs_length (src : List K) (pairs : List (ℕ × ℕ)) (d0 : List K) :
    (copyPairs src pairs d0).length = d0.length := by
  induction pairs generalizing d0 with
  | nil => rfl
  | cons pr ps ih =>
    have : copyPairs src (pr :: ps) d0 =
        copyPairs src ps (d0.set pr.2 (src.getD pr.1 0)) := rfl
    rw [this, ih]
    simp

theorem getD_replicate_zero (n i : ℕ) : (List.replicate n (0 : K)).getD i 0 = 0 := by
  by_cases h : i < n
  · rw [List.getD_eq_getElem _ _ (by simpa using h)]
    simp
  · rw [List.getD_eq_default _ _ (by simpa using h)]

theorem bcast2_batch (Nd : List ℕ) (b : ℕ) (hb : 0 < b) :
    bcast2 (Nd ++ [b]) (Nd ++ [1]) = some (Nd ++ [b]) := by
  unfold bcast2
  rw [List.reverse_append, List.reverse_append]
  simp only [List.reverse_cons, List.reverse_nil, List.nil_append, List.singleton_append]
  have hstep : bcastRev (b :: Nd.reverse) (1 :: Nd.reverse) =
      some (max b 1 :: Nd.reverse) := by
    unfold bcastRev
    rw [if_pos (by omega)]
    rw [bcastRev_self]
    rfl
  rw [hstep, Option.map_some']
  rw [Nat.max_eq_left hb, List.reverse_cons, List.reverse_reverse]

end StageOk

section MethodOk

variable {K : Type} [CommRing K] [StarRing K] [DecidableEq K] (p : Plan K)

theorem x2xx_ok (hWF : PlanWF p) (x : Arr K) (hx : x.shape = multi_Nd p) :
    x2xx p x = .ok ⟨multi_Nd p, (List.range ((multi_Nd p).prod)).map
      (fun i => bGet x.shape x.data (unflatten (multi_Nd p) i) *
                bGet p.sn.shape p.sn.data (unflatten (multi_Nd p) i))⟩ := by
  have hsn : p.sn.shape = (if p.parallel_flag then p.Nd ++ [1] else p.Nd) := by
    obtain ⟨-, -, -, -, -, -, -, h8, -⟩ := hWF
    exact h8
  have hbpos : 0 < p.batch := by
    obtain ⟨-, -, -, -, -, h6, -⟩ := hWF
    exact h6
  unfold x2xx arrMul
  cases hpf : p.parallel_flag with
  | false =>
    rw [hpf] at hsn
    simp only [if_neg Bool.false_ne_true] at hsn
    have hmn : multi_Nd p = p.Nd := by unfold multi_Nd; rw [hpf]; rfl
    rw [hx, hsn, hmn, bcast2_self]
  | true =>
    rw [hpf] at hsn
    simp only [if_pos] at hsn
    have hmn : multi_Nd p = p.Nd ++ [p.batch] := by unfold multi_Nd; rw [hpf]; rfl
    rw [hx, hsn, hmn, bcast2_batch p.Nd p.batch hbpos]

theorem x2xx_ok_single (hWF : PlanWF p) (hpf : p.parallel_flag = false) (x : Arr K)
    (hx : x.shape = p.Nd) :
    x2xx p x = .ok ⟨p.Nd, (List.range p.Nd.prod).map
      (fun i => x.data.getD i 0 * p.sn.data.getD i 0)⟩ := by
  have hsn : p.sn.shape = p.Nd := by
    obtain ⟨-, -, -, -, -, -, -, h8, -⟩ := hWF
    rw [hpf] at h8
    simpa using h8
  unfold x2xx
  rw [arrMul_eq_shapes x p.sn (by rw [hx, hsn])]
  rw [hx]

theorem xx2k_ok (hWF : PlanWF p) (xx : Arr K)
    (hxx : xx.data.length = p.Nd.prod * p.batch) :
    xx2k p xx = .ok (p.ft_axes.foldl (fun acc a =>
      dft1Core (fun t => p.root (acc.shape.getD a 0) ^ t) a acc)
      ⟨multi_Kd p, copyPairs xx.data (copyIdx p)
        (List.replicate ((multi_Kd p).prod) 0)⟩) := by
  unfold xx2k
  rw [if_pos, fftn_ok]
  · exact multi_Kd_axes p hWF
  · intro pr hpr
    have hb := copyIdx_bound p hWF pr hpr
    refine ⟨by omega, ?_⟩
    rw [List.length_replicate, multi_Kd_prod p hWF]
    exact hb.2

theorem k2vec_ok (hWF : PlanWF p) (k : Arr K) (hk : k.shape = multi_Kd p) :
    k2vec p k = .ok ⟨multi_prodKd p, k.data⟩ := by
  unfold k2vec
  rw [reshapeTo_ok _ _ (by rw [hk, multi_Kd_prod p hWF, multi_prodKd_prod p hWF])]

theorem vec2k_ok (hWF : PlanWF p) (kv : Arr K) (hkv : kv.shape.prod = p.Kd.prod * p.batch) :
    vec2k p kv = .ok ⟨multi_Kd p, kv.data⟩ := by
  unfold vec2k
  rw [reshapeTo_ok _ _ (by rw [hkv, multi_Kd_prod p hWF])]

theorem spDot_ok (A : SpMat K) (v : Arr K) (hv : v.shape.head? = some A.N)
    (hlen : v.shape.length ≤ 2) :
    spDot A v = .ok ⟨A.M :: v.shape.tail,
      (List.range (A.M * v.shape.tail.prod)).map (fun i =>
        (A.entries.map (fun e =>
          if e.1 = i / v.shape.tail.prod then
            e.2.2 * v.data.getD (e.2.1 * v.shape.tail.prod + i % v.shape.tail.prod) 0
          else 0)).sum)⟩ := by
  unfold spDot
  rw [if_pos ⟨hv, hlen⟩]

theorem k2xx_ok (hWF : PlanWF p) (k : Arr K) (hsh : k.shape = multi_Kd p)
    (hlen : k.data.length = (multi_Kd p).prod) :
    k2xx p k = .ok ⟨multi_Nd p,
      copyPairs (p.ft_axes.foldl (fun acc a => ifft1Core p.root p.invN a acc) k).data
        (gatherIdx p) (List.replicate ((multi_Nd p).prod) 0)⟩ := by
  unfold k2xx
  rw [ifftn_ok _ _ _ _ (by rw [hsh]; exact multi_Kd_axes p hWF), ok_bind]
  rw [if_pos]
  intro pr hpr
  have hb := gatherIdx_bound p hWF pr hpr
  constructor
  · rw [ifft_fold_length _ _ _ _ (by rw [hlen, hsh]), hsh, multi_Kd_prod p hWF]
    exact hb.1
  · rw [List.length_replicate, multi_Nd_prod p hWF]
    exact hb.2

end MethodOk

end NUFFT_cpu

/-- C2: `selfadjoint(x)` equals `adjoint(forward(x))` (exactly, by
unfolding: the fused `k2y2k` chain is literally `y2k∘k2y`), and `k2y2k`
equals the composition `y2k(k2y(k))`, for every plan and input. -/
theorem C2_selfadjoint_consistency {K : Type} [CommRing K] [StarRing K] [DecidableEq K] :
    ∀ (p : Plan K) (x k : Arr K),
      NUFFT_cpu.selfadjoint p x = NUFFT_cpu.forward p x >>= NUFFT_cpu.adjoint p ∧
      NUFFT_cpu.k2y2k p k = NUFFT_cpu.k2y p k >>= NUFFT_cpu.y2k p := by
  intro p x k
  constructor
  · unfold NUFFT_cpu.selfadjoint NUFFT_cpu.forward NUFFT_cpu.adjoint NUFFT_cpu.k2y2k
      NUFFT_cpu.k2y NUFFT_cpu.y2k
    cases hx : NUFFT_cpu.x2xx p x with
    | error e => simp only [error_bind]
    | ok xx =>
      simp only [ok_bind]
      cases hk : NUFFT_cpu.xx2k p xx with
      | error e => simp only [error_bind]
      | ok kk =>
        simp only [ok_bind]
        cases hv : NUFFT_cpu.k2vec p kk with
        | error e => simp only [error_bind]
        | ok kv =>
          simp only [ok_bind]
          cases hy : NUFFT_cpu.vec2y p kv with
          | error e => simp only [error_bind]
          | ok y => simp only [ok_bind]
  · unfold NUFFT_cpu.k2y2k NUFFT_cpu.k2y NUFFT_cpu.y2k
    cases hv : NUFFT_cpu.k2vec p k with
    | error e => simp only [error_bind]
    | ok kv =>
      simp only [ok_bind]
      cases hy : NUFFT_cpu.vec2y p kv with
      | error e => simp only [error_bind]
      | ok y => simp only [ok_bind]

theorem find?_snd_eq (pairs : List (ℕ × ℕ)) (hnodup : (pairs.map Prod.snd).Nodup)
    (pr : ℕ × ℕ) (hm : pr ∈ pairs) :
    pairs.find? (fun q => q.2 == pr.2) = some pr := by
  induction pairs with
  | nil => cases hm
  | cons q qs ih =>
    rcases List.mem_cons.mp hm with rfl | hm2
    · exact List.find?_cons_of_pos _ (by simp)
    · have hne : q.2 ≠ pr.2 := by
        intro he
        have hmem : q.2 ∈ qs.map Prod.snd := by
          rw [he]
          exact List.mem_map_of_mem Prod.snd hm2
        exact (List.nodup_cons.mp (by simpa using hnodup)).1 hmem
      rw [List.find?_cons_of_neg _ (by simp [hne])]
      exact ih (by simpa using hnodup.of_cons) hm2

section RoundTrip

variable {K : Type} [CommRing K] [StarRing K] [DecidableEq K]

open NUFFT_cpu

theorem copyIdx_mem (p : Plan K) (hWF : PlanWF p) (t bat : ℕ) (ht : t < p.Nd.prod)
    (hb : bat < p.batch) :
    (t * p.batch + bat, kdIndex p.Nd p.Kd t * p.batch + bat) ∈ copyIdx p := by
  rw [copyIdx_eq_batchPairs p hWF, batchPairs_mem_iff]
  exact ⟨t, ht, bat, hb, rfl⟩

theorem gatherIdx_mem (p : Plan K) (hWF : PlanWF p) (t bat : ℕ) (ht : t < p.Nd.prod)
    (hb : bat < p.batch) :
    (kdIndex p.Nd p.Kd t * p.batch + bat, t * p.batch + bat) ∈ gatherIdx p := by
  rw [gatherIdx_eq_swap, List.mem_map]
  exact ⟨(t * p.batch + bat, kdIndex p.Nd p.Kd t * p.batch + bat),
    copyIdx_mem p hWF t bat ht hb, rfl⟩

/-- C10: for every planned operator, gathering (with the same reorder tables
as `k2xx`) from the oversampled buffer produced by the scatter step of
`xx2k` — before the FFT — returns the input exactly; the two index tables
are equal-length, elementwise injective, and `NdCPUorder` covers every
position of the flattened `Nd` buffer. -/
theorem C10_reorder_roundtrip (p : Plan K) (xx : Arr K) (hWF : PlanWF p)
    (hsh : xx.shape = multi_Nd p) (hlen : xx.data.length = (multi_Nd p).prod) :
    (Arr.mk (multi_Nd p)
        (copyPairs
          (copyPairs xx.data (copyIdx p) (List.replicate ((multi_Kd p).prod) 0))
          (gatherIdx p) (List.replicate ((multi_Nd p).prod) 0)) = xx) ∧
      p.NdCPUorder.length = p.KdCPUorder.length ∧
      p.NdCPUorder.Nodup ∧ p.KdCPUorder.Nodup ∧
      (∀ i, i < p.Nd.prod → i ∈ p.NdCPUorder) := by
  obtain ⟨hNdO, hKdO, -⟩ := wf_orders p hWF
  have hB : 0 < p.batch := by
    obtain ⟨-, -, -, -, -, h6, -⟩ := hWF
    exact h6
  refine ⟨?_, ?_, ?_, ?_, ?_⟩
  · -- the scatter-then-gather round trip
    have hNP := multi_Nd_prod p hWF
    have hKP := multi_Kd_prod p hWF
    have hlen2 : (copyPairs
        (copyPairs xx.data (copyIdx p) (List.replicate ((multi_Kd p).prod) 0))
        (gatherIdx p) (List.replicate ((multi_Nd p).prod) 0)).length
        = (multi_Nd p).prod := by
      rw [copyPairs_length, List.length_replicate]
    have hdata : copyPairs
        (copyPairs xx.data (copyIdx p) (List.replicate ((multi_Kd p).prod) 0))
        (gatherIdx p) (List.replicate ((multi_Nd p).prod) 0) = xx.data := by
      apply List.ext_getElem (by rw [hlen2, hlen])
      intro i hi1 hi2
      have hi1' : i < p.Nd.prod * p.batch := by
        have := hi1
        rw [hlen2, hNP] at this
        exact this
      set t0 := i / p.batch with ht0
      set bat0 := i % p.batch with hbat0
      have ht0lt : t0 < p.Nd.prod := by
        rw [ht0]
        exact Nat.div_lt_of_lt_mul (by rw [Nat.mul_comm]; exact hi1')
      have hbat0lt : bat0 < p.batch := Nat.mod_lt _ hB
      have hieq : t0 * p.batch + bat0 = i := Nat.div_add_mod' i p.batch
      have hgmem : (kdIndex p.Nd p.Kd t0 * p.batch + bat0, i) ∈ gatherIdx p := by
        rw [← hieq]
        exact gatherIdx_mem p hWF t0 bat0 ht0lt hbat0lt
      have hgfind := find?_snd_eq (gatherIdx p) (gatherIdx_snd_nodup p hWF)
        (kdIndex p.Nd p.Kd t0 * p.batch + bat0, i) hgmem
      have hg2 : (copyPairs
          (copyPairs xx.data (copyIdx p) (List.replicate ((multi_Kd p).prod) 0))
          (gatherIdx p) (List.replicate ((multi_Nd p).prod) 0)).getD i 0 =
          (copyPairs xx.data (copyIdx p)
            (List.replicate ((multi_Kd p).prod) 0)).getD
              (kdIndex p.Nd p.Kd t0 * p.batch + bat0) 0 := by
        rw [copyPairs_getD _ _ _ (gatherIdx_snd_nodup p hWF)
          (fun pr hpr => by
            rw [List.length_replicate, hNP]
            exact (gatherIdx_bound p hWF pr hpr).2) i, hgfind]
      have hcmem : (i, kdIndex p.Nd p.Kd t0 * p.batch + bat0) ∈ copyIdx p := by
        rw [← hieq]
        exact copyIdx_mem p hWF t0 bat0 ht0lt hbat0lt
      have hcfind := find?_snd_eq (copyIdx p) (copyIdx_snd_nodup p hWF)
        (i, kdIndex p.Nd p.Kd t0 * p.batch + bat0) hcmem
      have hc2 : (copyPairs xx.data (copyIdx p)
          (List.replicate ((multi_Kd p).prod) 0)).getD
            (kdIndex p.Nd p.Kd t0 * p.batch + bat0) 0 = xx.data.getD i 0 := by
        rw [copyPairs_getD _ _ _ (copyIdx_snd_nodup p hWF)
          (fun pr hpr => by
            rw [List.length_replicate, hKP]
            exact (copyIdx_bound p hWF pr hpr).2), hcfind]
      rw [← List.getD_eq_getElem _ 0 hi1, ← List.getD_eq_getElem _ 0 hi2]
      rw [hg2, hc2]
    cases xx with
    | mk sh d =>
      simp only at hsh hdata
      rw [hdata, hsh]
  · rw [hNdO, hKdO]
    simp
  · rw [hNdO]
    exact List.nodup_range _
  · rw [hKdO]
    refine (List.nodup_map_iff_inj_on (List.nodup_range _)).mpr ?_
    intro t ht u hu he
    rw [List.mem_range] at ht hu
    exact wf_kd_inj p hWF t ht u hu he
  · intro i hi
    rw [hNdO, List.mem_range]
    exact hi

end RoundTrip

namespace NUFFT_cpu

section ChainOk

variable {K : Type} [CommRing K] [StarRing K] [DecidableEq K] (p : Plan K)

theorem multi_prodKd_head : (multi_prodKd p).head? = some p.Kd.prod := by
  unfold multi_prodKd
  cases hpf : p.parallel_flag <;> simp

theorem multi_prodKd_two : (multi_prodKd p).length ≤ 2 := by
  unfold multi_prodKd
  cases hpf : p.parallel_flag <;> simp

theorem multi_prodKd_tail_prod (hWF : PlanWF p) :
    (multi_prodKd p).tail.prod = p.batch := by
  obtain ⟨-, -, -, -, -, -, hb1, -⟩ := hWF
  unfold multi_prodKd
  cases hpf : p.parallel_flag with
  | false => simp [hb1 hpf]
  | true => simp

theorem multi_M_cons (hWF : PlanWF p) :
    p.M :: (multi_prodKd p).tail = multi_M p := by
  unfold multi_prodKd multi_M
  cases hpf : p.parallel_flag <;> simp

theorem multi_M_head (hWF : PlanWF p) : (multi_M p).head? = some p.M := by
  unfold multi_M
  cases hpf : p.parallel_flag <;> simp

theorem multi_M_two : (multi_M p).length ≤ 2 := by
  unfold multi_M
  cases hpf : p.parallel_flag <;> simp

theorem multi_M_tail_prod (hWF : PlanWF p) : (multi_M p).tail.prod = p.batch := by
  obtain ⟨-, -, -, -, -, -, hb1, -⟩ := hWF
  unfold multi_M
  cases hpf : p.parallel_flag with
  | false => simp [hb1 hpf]
  | true => simp

theorem multi_Kd_cons (hWF : PlanWF p) :
    p.Kd.prod :: (multi_M p).tail = multi_prodKd p := by
  unfold multi_prodKd multi_M
  cases hpf : p.parallel_flag <;> simp

theorem wf_spN (hWF : PlanWF p) : p.sp.N = p.Kd.prod := by
  obtain ⟨-, -, -, -, -, -, -, -, -, -, h11, -⟩ := hWF
  exact h11

theorem wf_spM (hWF : PlanWF p) : p.sp.M = p.M := by
  obtain ⟨-, -, -, -, -, -, -, -, -, h10, -⟩ := hWF
  exact h10

theorem wf_spH (hWF : PlanWF p) : p.spH = p.sp.getH := by
  obtain ⟨-, -, -, -, -, -, -, -, -, -, -, h12, -⟩ := hWF
  exact h12

theorem wf_spH_N (hWF : PlanWF p) : p.spH.N = p.M := by
  rw [wf_spH p hWF]
  show p.sp.M = p.M
  exact wf_spM p hWF

theorem wf_spH_M (hWF : PlanWF p) : p.spH.M = p.Kd.prod := by
  rw [wf_spH p hWF]
  show p.sp.N = p.Kd.prod
  exact wf_spN p hWF

/-- A successful run of `forward` on a well-shaped input: the output has
shape `multi_M` (`(M,)` or `(M, batch)`). -/
theorem forward_ok (hWF : PlanWF p) (x : Arr K)
    (hx : x.shape = multi_Nd p) (hxd : x.data.length = (multi_Nd p).prod) :
    ∃ y : Arr K, forward p x = .ok y ∧ y.shape = multi_M p ∧
      y.data.length = (multi_M p).prod := by
  unfold forward
  rw [x2xx_ok p hWF x hx, ok_bind]
  have hxxlen : ((List.range ((multi_Nd p).prod)).map
      (fun i => bGet x.shape x.data (unflatten (multi_Nd p) i) *
                bGet p.sn.shape p.sn.data (unflatten (multi_Nd p) i))).length
      = p.Nd.prod * p.batch := by
    rw [List.length_map, List.length_range, multi_Nd_prod p hWF]
  rw [xx2k_ok p hWF _ hxxlen, ok_bind]
  unfold k2y
  set F := p.ft_axes.foldl (fun acc a =>
      dft1Core (fun t => p.root (acc.shape.getD a 0) ^ t) a acc)
      (⟨multi_Kd p, copyPairs _ (copyIdx p)
        (List.replicate ((multi_Kd p).prod) 0)⟩ : Arr K) with hF
  have hFsh : F.shape = multi_Kd p := by
    rw [hF, fft_fold_shape]
  have hFlen : F.data.length = (multi_Kd p).prod := by
    rw [hF, fft_fold_length]
    rw [copyPairs_length, List.length_replicate]
  rw [k2vec_ok p hWF F hFsh, ok_bind]
  unfold vec2y
  rw [spDot_ok p.sp ⟨multi_prodKd p, F.data⟩
    (by rw [wf_spN p hWF]; exact multi_prodKd_head p)
    (multi_prodKd_two p)]
  refine ⟨_, rfl, ?_, ?_⟩
  · show p.sp.M :: (multi_prodKd p).tail = multi_M p
    rw [wf_spM p hWF]
    exact multi_M_cons p hWF
  · simp only [List.length_map, List.length_range]
    rw [wf_spM p hWF, multi_prodKd_tail_prod p hWF, multi_M_prod p hWF]

/-- A successful run of `adjoint` on a well-shaped input: the output has
shape `multi_Nd` (`Nd` or `Nd + (batch,)`). -/
theorem adjoint_ok (hWF : PlanWF p) (y : Arr K)
    (hy : y.shape = multi_M p) (hyd : y.data.length = (multi_M p).prod) :
    ∃ x2 : Arr K, adjoint p y = .ok x2 ∧ x2.shape = multi_Nd p ∧
      x2.data.length = (multi_Nd p).prod := by
  unfold adjoint y2k
  unfold y2vec
  rw [spDot_ok p.spH y (by rw [hy, wf_spH_N p hWF]; exact multi_M_head p hWF)
    (by rw [hy]; exact multi_M_two p), ok_bind]
  have hkv : ((p.spH.M :: y.shape.tail : List ℕ)).prod = p.Kd.prod * p.batch := by
    rw [wf_spH_M p hWF, hy, List.prod_cons, multi_M_tail_prod p hWF]
  rw [vec2k_ok p hWF _ hkv, ok_bind]
  rw [k2xx_ok p hWF _ rfl (by
    simp only [List.length_map, List.length_range]
    rw [wf_spH_M p hWF, hy, multi_M_tail_prod p hWF, multi_Kd_prod p hWF]), ok_bind]
  unfold xx2x
  rw [x2xx_ok p hWF _ rfl]
  refine ⟨_, rfl, rfl, ?_⟩
  simp only [List.length_map, List.length_range]

end ChainOk

end NUFFT_cpu

/-- C8: for an operator planned with `Nd=(16,16)`, `Kd=(32,32)`, `M=100`,
`forward` maps a `(16,16)` array to a `(100,)` array; planned with
`batch=4`, it maps a `(16,16,4)` array to a `(100,4)` array. -/
theorem C8_shape_contract {K : Type} [CommRing K] [StarRing K] [DecidableEq K]
    (p q : Plan K) (x xb : Arr K)
    (hWFp : NUFFT_cpu.PlanWF p) (hpNd : p.Nd = [16, 16]) (hpKd : p.Kd = [32, 32])
    (hpM : p.M = 100) (hpflag : p.parallel_flag = false)
    (hx : x.shape = [16, 16]) (hxd : x.data.length = 256)
    (hWFq : NUFFT_cpu.PlanWF q) (hqNd : q.Nd = [16, 16]) (hqKd : q.Kd = [32, 32])
    (hqM : q.M = 100) (hqflag : q.parallel_flag = true) (hqb : q.batch = 4)
    (hxb : xb.shape = [16, 16, 4]) (hxbd : xb.data.length = 1024) :
    (∃ y : Arr K, NUFFT_cpu.forward p x = .ok y ∧ y.shape = [100] ∧
      y.data.length = 100) ∧
    (∃ yb : Arr K, NUFFT_cpu.forward q xb = .ok yb ∧ yb.shape = [100, 4] ∧
      yb.data.length = 400) := by
  constructor
  · have hmn : NUFFT_cpu.multi_Nd p = [16, 16] := by
      unfold NUFFT_cpu.multi_Nd
      rw [hpflag, hpNd]
      rfl
    have hmm : NUFFT_cpu.multi_M p = [100] := by
      unfold NUFFT_cpu.multi_M
      rw [hpflag, hpM]
      rfl
    obtain ⟨y, hy, hysh, hylen⟩ := NUFFT_cpu.forward_ok p hWFp x
      (by rw [hx, hmn]) (by rw [hxd, hmn]; rfl)
    exact ⟨y, hy, by rw [hysh, hmm], by rw [hylen, hmm]; rfl⟩
  · have hmn : NUFFT_cpu.multi_Nd q = [16, 16, 4] := by
      unfold NUFFT_cpu.multi_Nd
      rw [hqflag, hqNd, hqb]
      rfl
    have hmm : NUFFT_cpu.multi_M q = [100, 4] := by
      unfold NUFFT_cpu.multi_M
      rw [hqflag, hqM, hqb]
      rfl
    obtain ⟨yb, hyb, hybsh, hyblen⟩ := NUFFT_cpu.forward_ok q hWFq xb
      (by rw [hxb, hmn]) (by rw [hxbd, hmn]; rfl)
    exact ⟨yb, hyb, by rw [hybsh, hmm], by rw [hyblen, hmm]; rfl⟩


set_option maxRecDepth 100000 in
/-- Witness for C8 at concrete operators with the claimed geometry. -/
theorem C8_shape_contract_witness :
    (∃ y : Arr GQ, NUFFT_cpu.forward p16 ⟨[16, 16], List.replicate 256 1⟩ = .ok y ∧
      y.shape = [100] ∧ y.data.length = 100) ∧
    (∃ yb : Arr GQ, NUFFT_cpu.forward q16 ⟨[16, 16, 4], List.replicate 1024 1⟩ = .ok yb ∧
      yb.shape = [100, 4] ∧ yb.data.length = 400) :=
  C8_shape_contract p16 q16 ⟨[16, 16], List.replicate 256 1⟩
    ⟨[16, 16, 4], List.replicate 1024 1⟩
    (by decide) (by decide) (by decide) (by decide) (by decide)
    (by decide) (by decide)
    (by decide) (by decide) (by decide) (by decide) (by decide) (by decide)
    (by decide) (by decide)

section ZeroLemmas

variable {K : Type} [CommRing K] [StarRing K] [DecidableEq K]

theorem allZero_getD (l : List K) (h : ∀ v ∈ l, v = 0) (i : ℕ) : l.getD i 0 = 0 := by
  by_cases hi : i < l.length
  · rw [List.getD_eq_getElem _ _ hi]
    exact h _ (List.getElem_mem hi)
  · rw [List.getD_eq_default _ _ (by omega)]

theorem bGet_allZero (s : List ℕ) (data : List K) (h : ∀ v ∈ data, v = 0)
    (odx : List ℕ) : bGet s data odx = 0 := by
  unfold bGet
  exact allZero_getD data h _

theorem copyPairs_allZero (src : List K) (pairs : List (ℕ × ℕ)) (d0 : List K)
    (hsrc : ∀ v ∈ src, v = 0) (hd0 : ∀ v ∈ d0, v = 0) :
    ∀ v ∈ copyPairs src pairs d0, v = 0 := by
  induction pairs generalizing d0 with
  | nil => exact hd0
  | cons pr ps ih =>
    have hstep : copyPairs src (pr :: ps) d0 =
        copyPairs src ps (d0.set pr.2 (src.getD pr.1 0)) := rfl
    rw [hstep]
    refine ih _ (fun v hv => ?_)
    rcases List.mem_or_eq_of_mem_set hv with hv2 | rfl
    · exact hd0 v hv2
    · exact allZero_getD src hsrc _

theorem dft1Core_allZero (w : ℕ → K) (a : ℕ) (x : Arr K)
    (h : ∀ v ∈ x.data, v = 0) : ∀ v ∈ (dft1Core w a x).data, v = 0 := by
  intro v hv
  unfold dft1Core at hv
  simp only [List.mem_map, List.mem_range] at hv
  obtain ⟨i, -, rfl⟩ := hv
  refine Finset.sum_eq_zero (fun j hj => ?_)
  rw [allZero_getD x.data h, mul_zero]

theorem fft_fold_allZero (root : ℕ → K) (axes : List ℕ) (x : Arr K)
    (h : ∀ v ∈ x.data, v = 0) :
    ∀ v ∈ (axes.foldl (fun acc a =>
      dft1Core (fun t => root (acc.shape.getD a 0) ^ t) a acc) x).data, v = 0 := by
  induction axes generalizing x with
  | nil => exact h
  | cons a as ih =>
    rw [List.foldl_cons]
    exact ih _ (dft1Core_allZero _ a x h)

theorem ifft_fold_allZero (root invN : ℕ → K) (axes : List ℕ) (x : Arr K)
    (h : ∀ v ∈ x.data, v = 0) :
    ∀ v ∈ (axes.foldl (fun acc a => ifft1Core root invN a acc) x).data, v = 0 := by
  induction axes generalizing x with
  | nil => exact h
  | cons a as ih =>
    rw [List.foldl_cons]
    refine ih _ (fun v hv => ?_)
    unfold ifft1Core at hv
    simp only [List.mem_map] at hv
    obtain ⟨u, hu, rfl⟩ := hv
    rw [dft1Core_allZero _ a x h u hu, mul_zero]

theorem spDot_data_allZero (A : SpMat K) (cols : ℕ) (v : List K) (n : ℕ)
    (hv : ∀ u ∈ v, u = 0) :
    ∀ u ∈ (List.range n).map (fun i =>
      (A.entries.map (fun e =>
        if e.1 = i / cols then e.2.2 * v.getD (e.2.1 * cols + i % cols) 0
        else 0)).sum), u = 0 := by
  intro u hu
  simp only [List.mem_map, List.mem_range] at hu
  obtain ⟨i, -, rfl⟩ := hu
  refine List.sum_eq_zero (fun w hw => ?_)
  simp only [List.mem_map] at hw
  obtain ⟨e, -, rfl⟩ := hw
  by_cases he : e.1 = i / cols
  · rw [if_pos he, allZero_getD v hv, mul_zero]
  · rw [if_neg he]

end ZeroLemmas

section ZeroChain

variable {K : Type} [CommRing K] [StarRing K] [DecidableEq K]

open NUFFT_cpu

theorem forward_zero (p : Plan K) (hWF : PlanWF p) (x : Arr K)
    (hx : x.shape = multi_Nd p) (hxz : ∀ v ∈ x.data, v = 0) :
    forward p x = .ok ⟨multi_M p, List.replicate ((multi_M p).prod) 0⟩ := by
  unfold NUFFT_cpu.forward
  rw [x2xx_ok p hWF x hx, ok_bind]
  have hxxz : ∀ v ∈ (List.range ((multi_Nd p).prod)).map
      (fun i => bGet x.shape x.data (unflatten (multi_Nd p) i) *
        bGet p.sn.shape p.sn.data (unflatten (multi_Nd p) i)), v = 0 := by
    intro v hv
    simp only [List.mem_map, List.mem_range] at hv
    obtain ⟨i, -, rfl⟩ := hv
    rw [bGet_allZero _ _ hxz, zero_mul]
  rw [xx2k_ok p hWF _ (by
    simp only [List.length_map, List.length_range]
    exact multi_Nd_prod p hWF), ok_bind]
  unfold NUFFT_cpu.k2y
  rw [k2vec_ok p hWF _ (fft_fold_shape _ _ _), ok_bind]
  unfold NUFFT_cpu.vec2y
  rw [spDot_ok p.sp _ (by rw [wf_spN p hWF]; exact multi_prodKd_head p)
    (multi_prodKd_two p)]
  refine congrArg Except.ok ?_
  have hscatz : ∀ v ∈ copyPairs
      ((List.range ((multi_Nd p).prod)).map
        (fun i => bGet x.shape x.data (unflatten (multi_Nd p) i) *
          bGet p.sn.shape p.sn.data (unflatten (multi_Nd p) i)))
      (copyIdx p) (List.replicate ((multi_Kd p).prod) 0), v = 0 :=
    copyPairs_allZero _ _ _ hxxz (fun v hv => List.eq_of_mem_replicate hv)
  have hfz := fft_fold_allZero p.root p.ft_axes
    (⟨multi_Kd p, copyPairs
      ((List.range ((multi_Nd p).prod)).map
        (fun i => bGet x.shape x.data (unflatten (multi_Nd p) i) *
          bGet p.sn.shape p.sn.data (unflatten (multi_Nd p) i)))
      (copyIdx p) (List.replicate ((multi_Kd p).prod) 0)⟩ : Arr K) hscatz
  rw [Arr.mk.injEq]
  refine ⟨?_, ?_⟩
  · show p.sp.M :: (multi_prodKd p).tail = multi_M p
    rw [wf_spM p hWF]
    exact multi_M_cons p hWF
  · refine List.eq_replicate_iff.mpr ⟨?_, ?_⟩
    · simp only [List.length_map, List.length_range]
      rw [wf_spM p hWF]
      show p.M * (multi_prodKd p).tail.prod = (multi_M p).prod
      rw [multi_prodKd_tail_prod p hWF, multi_M_prod p hWF]
    · exact spDot_data_allZero p.sp _ _ _ hfz

theorem adjoint_zero (p : Plan K) (hWF : PlanWF p) (y : Arr K)
    (hy : y.shape = multi_M p) (hyz : ∀ v ∈ y.data, v = 0) :
    adjoint p y = .ok ⟨multi_Nd p, List.replicate ((multi_Nd p).prod) 0⟩ := by
  unfold NUFFT_cpu.adjoint NUFFT_cpu.y2k NUFFT_cpu.y2vec
  rw [spDot_ok p.spH y (by rw [hy, wf_spH_N p hWF]; exact multi_M_head p hWF)
    (by rw [hy]; exact multi_M_two p), ok_bind]
  have hkvz : ∀ v ∈ (List.range (p.spH.M * y.shape.tail.prod)).map
      (fun i => (p.spH.entries.map (fun e =>
        if e.1 = i / y.shape.tail.prod then
          e.2.2 * y.data.getD (e.2.1 * y.shape.tail.prod + i % y.shape.tail.prod) 0
        else 0)).sum), v = 0 :=
    spDot_data_allZero p.spH _ _ _ hyz
  rw [vec2k_ok p hWF _ (by
    rw [List.prod_cons, wf_spH_M p hWF, hy, multi_M_tail_prod p hWF]), ok_bind]
  rw [k2xx_ok p hWF _ rfl (by
    simp only [List.length_map, List.length_range]
    rw [wf_spH_M p hWF, hy, multi_M_tail_prod p hWF, multi_Kd_prod p hWF]), ok_bind]
  have hgz := copyPairs_allZero
    ((p.ft_axes.foldl (fun acc a => ifft1Core p.root p.invN a acc)
      (⟨multi_Kd p, (List.range (p.spH.M * y.shape.tail.prod)).map
        (fun i => (p.spH.entries.map (fun e =>
          if e.1 = i / y.shape.tail.prod then
            e.2.2 * y.data.getD (e.2.1 * y.shape.tail.prod + i % y.shape.tail.prod) 0
          else 0)).sum)⟩ : Arr K)).data) (gatherIdx p)
    (List.replicate ((multi_Nd p).prod) 0)
    (ifft_fold_allZero _ _ _ _ hkvz)
    (fun v hv => List.eq_of_mem_replicate hv)
  unfold NUFFT_cpu.xx2x
  rw [x2xx_ok p hWF _ rfl]
  refine congrArg Except.ok ?_
  rw [Arr.mk.injEq]
  refine ⟨rfl, ?_⟩
  refine List.eq_replicate_iff.mpr ⟨by simp, ?_⟩
  intro v hv
  simp only [List.mem_map, List.mem_range] at hv
  obtain ⟨i, -, rfl⟩ := hv
  rw [bGet_allZero _ _ hgz, zero_mul]

end ZeroChain

/-- C6: `forward` applied to the all-zeros array of shape `multi_Nd` returns
exactly the all-zeros array of shape `multi_M`, and `adjoint` applied to the
all-zeros array of shape `multi_M` returns exactly the all-zeros array of
shape `multi_Nd`, for every planned operator. -/
theorem C6_zero_input {K : Type} [CommRing K] [StarRing K] [DecidableEq K]
    (p : Plan K) (hWF : NUFFT_cpu.PlanWF p) :
    NUFFT_cpu.forward p ⟨NUFFT_cpu.multi_Nd p, List.replicate ((NUFFT_cpu.multi_Nd p).prod) 0⟩ =
      .ok ⟨NUFFT_cpu.multi_M p, List.replicate ((NUFFT_cpu.multi_M p).prod) 0⟩ ∧
    NUFFT_cpu.adjoint p ⟨NUFFT_cpu.multi_M p, List.replicate ((NUFFT_cpu.multi_M p).prod) 0⟩ =
      .ok ⟨NUFFT_cpu.multi_Nd p, List.replicate ((NUFFT_cpu.multi_Nd p).prod) 0⟩ :=
  ⟨forward_zero p hWF _ rfl (fun v hv => List.eq_of_mem_replicate hv),
   adjoint_zero p hWF _ rfl (fun v hv => List.eq_of_mem_replicate hv)⟩

/-- Witness for C6 at the concrete operator `pW`. -/
theorem C6_zero_input_witness :
    NUFFT_cpu.forward pW ⟨NUFFT_cpu.multi_Nd pW, List.replicate ((NUFFT_cpu.multi_Nd pW).prod) 0⟩ =
      .ok ⟨NUFFT_cpu.multi_M pW, List.replicate ((NUFFT_cpu.multi_M pW).prod) 0⟩ ∧
    NUFFT_cpu.adjoint pW ⟨NUFFT_cpu.multi_M pW, List.replicate ((NUFFT_cpu.multi_M pW).prod) 0⟩ =
      .ok ⟨NUFFT_cpu.multi_Nd pW, List.replicate ((NUFFT_cpu.multi_Nd pW).prod) 0⟩ :=
  C6_zero_input pW (by decide)

section C4Section

variable {K : Type} [CommRing K] [StarRing K] [DecidableEq K]

open NUFFT_cpu

theorem bcastRev_nil (t : List ℕ) : bcastRev ([] : List ℕ) t = some t := by
  cases t <;> rfl

theorem bcast2_nil_left (t : List ℕ) : bcast2 ([] : List ℕ) t = some t := by
  unfold bcast2
  rw [List.reverse_nil, bcastRev_nil, Option.map_some', List.reverse_reverse]

/-- numpy broadcasting silently accepts a 0-d (scalar) operand. -/
theorem arrMul_scalar (v : K) (y : Arr K) :
    arrMul ⟨[], [v]⟩ y = .ok ⟨y.shape, (List.range (y.shape.prod)).map
      (fun i => v * y.data.getD i 0)⟩ := by
  unfold arrMul
  rw [bcast2_nil_left]
  refine congrArg _ (congrArg _ ?_)
  refine List.map_congr_left (fun i hi => ?_)
  rw [List.mem_range] at hi
  have h1 : bGet ([] : List ℕ) [v] (unflatten y.shape i) = v := rfl
  rw [h1, bGet_self y.shape y.data i hi]

/-- The tail of `forward` after scaling: scatter + FFT + interpolation. -/
theorem forward_tail_ok (p : Plan K) (hWF : PlanWF p) (xx : Arr K)
    (hlen : xx.data.length = p.Nd.prod * p.batch) :
    ∃ y : Arr K, (xx2k p xx >>= k2y p) = .ok y ∧ y.shape = multi_M p ∧
      y.data.length = (multi_M p).prod := by
  rw [xx2k_ok p hWF xx hlen, ok_bind]
  unfold NUFFT_cpu.k2y
  set F := p.ft_axes.foldl (fun acc a =>
      dft1Core (fun t => p.root (acc.shape.getD a 0) ^ t) a acc)
      (⟨multi_Kd p, copyPairs xx.data (copyIdx p)
        (List.replicate ((multi_Kd p).prod) 0)⟩ : Arr K) with hF
  have hFsh : F.shape = multi_Kd p := by
    rw [hF, fft_fold_shape]
  rw [k2vec_ok p hWF F hFsh, ok_bind]
  unfold NUFFT_cpu.vec2y
  rw [spDot_ok p.sp ⟨multi_prodKd p, F.data⟩
    (by rw [wf_spN p hWF]; exact multi_prodKd_head p)
    (multi_prodKd_two p)]
  refine ⟨_, rfl, ?_, ?_⟩
  · show p.sp.M :: (multi_prodKd p).tail = multi_M p
    rw [wf_spM p hWF]
    exact multi_M_cons p hWF
  · simp only [List.length_map, List.length_range]
    rw [wf_spM p hWF, multi_prodKd_tail_prod p hWF, multi_M_prod p hWF]

/-- C4 counterexample: on the planned operator `pW` (with `Nd = (1,)`),
`forward` applied to a 0-d scalar array — whose shape disagrees with the
planned `Nd` — returns normally (`ok`) instead of raising any error: no
`ShapeMismatchError` check exists. -/
theorem C4_counterexample :
    NUFFT_cpu.PlanWF pW ∧
    (Arr.mk ([] : List ℕ) [(1 : GQ)]).shape ≠ NUFFT_cpu.multi_Nd pW ∧
    NUFFT_cpu.forward pW ⟨[], [1]⟩ = .ok ⟨[1], [1]⟩ :=
  ⟨by decide, by decide, by with_unfolding_all decide⟩

/-- C4 amended: `forward` (hence the pipeline) performs no runtime shape
validation: a 0-d scalar input is silently broadcast against `sn` and
accepted, producing a normally-shaped `(M,)` output. -/
theorem C4_amended_no_shape_check (p : Plan K) (hWF : PlanWF p)
    (hpf : p.parallel_flag = false) (v : K) :
    ∃ y : Arr K, NUFFT_cpu.forward p ⟨[], [v]⟩ = .ok y ∧ y.shape = multi_M p := by
  have hsn : p.sn.shape = p.Nd := by
    obtain ⟨-, -, -, -, -, -, -, h8, -⟩ := hWF
    rw [hpf] at h8
    simpa using h8
  have hb1 : p.batch = 1 := by
    obtain ⟨-, -, -, -, -, -, hb, -⟩ := hWF
    exact hb hpf
  unfold NUFFT_cpu.forward
  have hx2 : x2xx p ⟨[], [v]⟩ = .ok ⟨p.sn.shape, (List.range (p.sn.shape.prod)).map
      (fun i => v * p.sn.data.getD i 0)⟩ := arrMul_scalar v p.sn
  rw [hx2, ok_bind]
  obtain ⟨y, hy, hsh, hlen⟩ := forward_tail_ok p hWF
    ⟨p.sn.shape, (List.range (p.sn.shape.prod)).map (fun i => v * p.sn.data.getD i 0)⟩
    (by
      show ((List.range (p.sn.shape.prod)).map (fun i => v * p.sn.data.getD i 0)).length
        = p.Nd.prod * p.batch
      simp only [List.length_map, List.length_range]
      rw [hsn, hb1, Nat.mul_one])
  exact ⟨y, hy, hsh⟩

/-- Witness for the amended C4 at the concrete operator `pW`. -/
theorem C4_amended_no_shape_check_witness :
    ∃ y : Arr GQ, NUFFT_cpu.forward pW ⟨[], [1]⟩ = .ok y ∧
      y.shape = NUFFT_cpu.multi_M pW :=
  C4_amended_no_shape_check pW (by decide) (by decide) 1

end C4Section

section LinearityLemmas

variable {K : Type} [CommRing K] [StarRing K] [DecidableEq K]

open NUFFT_cpu

theorem zipWith_lin_getD (a b : K) (u v : List K) (h : u.length = v.length) (i : ℕ) :
    (List.zipWith (fun s t => a * s + b * t) u v).getD i 0 =
      a * u.getD i 0 + b * v.getD i 0 := by
  induction u generalizing v i with
  | nil =>
    cases v with
    | nil => simp
    | cons y v => simp at h
  | cons x u ih =>
    cases v with
    | nil => simp at h
    | cons y v =>
      cases i with
      | zero => rfl
      | succ i =>
        simp only [List.zipWith_cons_cons, List.getD_cons_succ]
        exact ih v (by simpa using h) i

theorem list_sum_lin {α : Type} (a b : K) (l : List α) (f f1 f2 : α → K)
    (h : ∀ e ∈ l, f e = a * f1 e + b * f2 e) :
    (l.map f).sum = a * (l.map f1).sum + b * (l.map f2).sum := by
  induction l with
  | nil => simp
  | cons e l ih =>
    simp only [List.map_cons, List.sum_cons]
    rw [h e (List.mem_cons_self e l), ih (fun e he => h e (List.mem_cons_of_mem _ he))]
    ring

theorem map_range_lin (a b : K) (n : ℕ) (f f1 f2 : ℕ → K)
    (h : ∀ j, j < n → f j = a * f1 j + b * f2 j) (i : ℕ) :
    ((List.range n).map f).getD i 0 =
      a * ((List.range n).map f1).getD i 0 + b * ((List.range n).map f2).getD i 0 := by
  by_cases hi : i < n
  · rw [map_range_getD n f i 0 hi, map_range_getD n f1 i 0 hi,
      map_range_getD n f2 i 0 hi]
    exact h i hi
  · rw [List.getD_eq_default _ _ (by simpa using hi),
      List.getD_eq_default _ _ (by simpa using hi),
      List.getD_eq_default _ _ (by simpa using hi)]
    ring

theorem copyPairs_lin (a b : K) (src src1 src2 : List K) (pairs : List (ℕ × ℕ)) (L : ℕ)
    (hnodup : (pairs.map Prod.snd).Nodup)
    (hbound : ∀ pr ∈ pairs, pr.2 < L)
    (h : ∀ i, src.getD i 0 = a * src1.getD i 0 + b * src2.getD i 0) (i : ℕ) :
    (copyPairs src pairs (List.replicate L (0 : K))).getD i 0 =
      a * (copyPairs src1 pairs (List.replicate L (0 : K))).getD i 0 +
      b * (copyPairs src2 pairs (List.replicate L (0 : K))).getD i 0 := by
  have hb' : ∀ pr ∈ pairs, pr.2 < (List.replicate L (0 : K)).length := by
    simpa using hbound
  rw [copyPairs_getD src pairs _ hnodup hb' i,
    copyPairs_getD src1 pairs _ hnodup hb' i,
    copyPairs_getD src2 pairs _ hnodup hb' i]
  cases hf : pairs.find? (fun pr => pr.2 == i) with
  | some pr => exact h pr.1
  | none =>
    simp only
    rw [getD_replicate_zero]
    ring

theorem dft1Core_lin (a b : K) (w : ℕ → K) (ax : ℕ) (sh : List ℕ) (d d1 d2 : List K)
    (h : ∀ i, d.getD i 0 = a * d1.getD i 0 + b * d2.getD i 0) (i : ℕ) :
    (dft1Core w ax (⟨sh, d⟩ : Arr K)).data.getD i 0 =
      a * (dft1Core w ax (⟨sh, d1⟩ : Arr K)).data.getD i 0 +
      b * (dft1Core w ax (⟨sh, d2⟩ : Arr K)).data.getD i 0 := by
  unfold dft1Core
  refine map_range_lin a b _ _ _ _ (fun j hj => ?_) i
  rw [Finset.mul_sum, Finset.mul_sum, ← Finset.sum_add_distrib]
  refine Finset.sum_congr rfl (fun t ht => ?_)
  rw [h]
  ring

theorem fft_fold_lin (a b : K) (root : ℕ → K) (axes : List ℕ) (sh : List ℕ)
    (d d1 d2 : List K)
    (h : ∀ i, d.getD i 0 = a * d1.getD i 0 + b * d2.getD i 0) :
    ∀ i, (axes.foldl (fun acc ax =>
        dft1Core (fun t => root (acc.shape.getD ax 0) ^ t) ax acc)
        (⟨sh, d⟩ : Arr K)).data.getD i 0 =
      a * (axes.foldl (fun acc ax =>
        dft1Core (fun t => root (acc.shape.getD ax 0) ^ t) ax acc)
        (⟨sh, d1⟩ : Arr K)).data.getD i 0 +
      b * (axes.foldl (fun acc ax =>
        dft1Core (fun t => root (acc.shape.getD ax 0) ^ t) ax acc)
        (⟨sh, d2⟩ : Arr K)).data.getD i 0 := by
  induction axes generalizing d d1 d2 with
  | nil => exact h
  | cons ax as ih =>
    intro i
    simp only [List.foldl_cons]
    have hstep : ∀ (e : List K),
        dft1Core (fun t => root ((⟨sh, e⟩ : Arr K).shape.getD ax 0) ^ t) ax
          (⟨sh, e⟩ : Arr K) =
        (⟨sh, (dft1Core (fun t => root (sh.getD ax 0) ^ t) ax
          (⟨sh, e⟩ : Arr K)).data⟩ : Arr K) := fun e => rfl
    rw [hstep d, hstep d1, hstep d2]
    exact ih _ _ _ (dft1Core_lin a b _ ax sh d d1 d2 h) i

theorem spDot_data_lin (a b : K) (A : SpMat K) (cols n : ℕ) (v v1 v2 : List K)
    (h : ∀ i, v.getD i 0 = a * v1.getD i 0 + b * v2.getD i 0) (i : ℕ) :
    ((List.range n).map (fun i => (A.entries.map (fun e =>
        if e.1 = i / cols then e.2.2 * v.getD (e.2.1 * cols + i % cols) 0
        else 0)).sum)).getD i 0 =
      a * ((List.range n).map (fun i => (A.entries.map (fun e =>
        if e.1 = i / cols then e.2.2 * v1.getD (e.2.1 * cols + i % cols) 0
        else 0)).sum)).getD i 0 +
      b * ((List.range n).map (fun i => (A.entries.map (fun e =>
        if e.1 = i / cols then e.2.2 * v2.getD (e.2.1 * cols + i % cols) 0
        else 0)).sum)).getD i 0 := by
  refine map_range_lin a b _ _ _ _ (fun j hj => ?_) i
  refine list_sum_lin a b _ _ _ _ (fun e he => ?_)
  by_cases hc : e.1 = j / cols
  · rw [if_pos hc, if_pos hc, if_pos hc, h]
    ring
  · rw [if_neg hc, if_neg hc, if_neg hc]
    ring

end LinearityLemmas


section ForwardEq

variable {K : Type} [CommRing K] [StarRing K] [DecidableEq K]

open NUFFT_cpu

/-- A single-channel `forward` run in closed form. -/
theorem forward_eq_single (p : Plan K) (hWF : PlanWF p)
    (hpf : p.parallel_flag = false) (x : Arr K) (hx : x.shape = p.Nd) :
    forward p x = .ok ⟨multi_M p, fwdData p x.data⟩ := by
  have hb1 : p.batch = 1 := by
    obtain ⟨-, -, -, -, -, -, hb, -⟩ := hWF
    exact hb hpf
  unfold NUFFT_cpu.forward
  rw [x2xx_ok_single p hWF hpf x hx, ok_bind]
  rw [xx2k_ok p hWF _ (by
    simp only [List.length_map, List.length_range]
    rw [hb1, Nat.mul_one]), ok_bind]
  unfold NUFFT_cpu.k2y
  rw [k2vec_ok p hWF _ (fft_fold_shape _ _ _), ok_bind]
  unfold NUFFT_cpu.vec2y
  rw [spDot_ok p.sp _ (by rw [wf_spN p hWF]; exact multi_prodKd_head p)
    (multi_prodKd_two p)]
  refine congrArg Except.ok ?_
  rw [Arr.mk.injEq]
  constructor
  · show p.sp.M :: (multi_prodKd p).tail = multi_M p
    rw [wf_spM p hWF]
    exact multi_M_cons p hWF
  · rfl

/-- C7: `forward` is linear — for all scalars `a`, `b` and same-shaped
single-channel inputs `x1`, `x2`, the forward transform of the pointwise
linear combination `a*x1 + b*x2` is the same linear combination of the two
forward transforms, exactly (over exact arithmetic every stage — scaling,
scatter, FFT, sparse product — is linear). -/
theorem C7_forward_linearity {K : Type} [CommRing K] [StarRing K] [DecidableEq K]
    (p : Plan K) (hWF : NUFFT_cpu.PlanWF p) (hpf : p.parallel_flag = false)
    (a b : K) (x1 x2 : Arr K) (h1 : x1.shape = p.Nd) (h2 : x2.shape = p.Nd)
    (hl : x1.data.length = x2.data.length) :
    ∃ y1 y2 y3 : Arr K,
      NUFFT_cpu.forward p x1 = .ok y1 ∧
      NUFFT_cpu.forward p x2 = .ok y2 ∧
      NUFFT_cpu.forward p
        ⟨p.Nd, List.zipWith (fun s t => a * s + b * t) x1.data x2.data⟩ = .ok y3 ∧
      y3.shape = y1.shape ∧
      y3.data = List.zipWith (fun s t => a * s + b * t) y1.data y2.data := by
  refine ⟨⟨NUFFT_cpu.multi_M p, fwdData p x1.data⟩,
    ⟨NUFFT_cpu.multi_M p, fwdData p x2.data⟩,
    ⟨NUFFT_cpu.multi_M p, fwdData p (List.zipWith (fun s t => a * s + b * t) x1.data x2.data)⟩,
    forward_eq_single p hWF hpf x1 h1,
    forward_eq_single p hWF hpf x2 h2,
    forward_eq_single p hWF hpf _ rfl, rfl, ?_⟩
  have hlinIn : ∀ i, (List.zipWith (fun s t => a * s + b * t) x1.data x2.data).getD i 0
      = a * x1.data.getD i 0 + b * x2.data.getD i 0 :=
    zipWith_lin_getD a b x1.data x2.data hl
  have hxx : ∀ i, ((List.range p.Nd.prod).map
      (fun i => (List.zipWith (fun s t => a * s + b * t) x1.data x2.data).getD i 0 *
        p.sn.data.getD i 0)).getD i 0 =
      a * ((List.range p.Nd.prod).map
        (fun i => x1.data.getD i 0 * p.sn.data.getD i 0)).getD i 0 +
      b * ((List.range p.Nd.prod).map
        (fun i => x2.data.getD i 0 * p.sn.data.getD i 0)).getD i 0 := by
    refine map_range_lin a b _ _ _ _ (fun j hj => ?_)
    rw [hlinIn j]
    ring
  have hscat : ∀ i, (copyPairs ((List.range p.Nd.prod).map
      (fun i => (List.zipWith (fun s t => a * s + b * t) x1.data x2.data).getD i 0 *
        p.sn.data.getD i 0)) (NUFFT_cpu.copyIdx p)
      (List.replicate ((NUFFT_cpu.multi_Kd p).prod) 0)).getD i 0 =
      a * (copyPairs ((List.range p.Nd.prod).map
        (fun i => x1.data.getD i 0 * p.sn.data.getD i 0)) (NUFFT_cpu.copyIdx p)
        (List.replicate ((NUFFT_cpu.multi_Kd p).prod) 0)).getD i 0 +
      b * (copyPairs ((List.range p.Nd.prod).map
        (fun i => x2.data.getD i 0 * p.sn.data.getD i 0)) (NUFFT_cpu.copyIdx p)
        (List.replicate ((NUFFT_cpu.multi_Kd p).prod) 0)).getD i 0 := by
    refine copyPairs_lin a b _ _ _ _ _ (NUFFT_cpu.copyIdx_snd_nodup p hWF)
      (fun pr hpr => by
        rw [NUFFT_cpu.multi_Kd_prod p hWF]
        exact (NUFFT_cpu.copyIdx_bound p hWF pr hpr).2) hxx
  have hF := fft_fold_lin a b p.root p.ft_axes (NUFFT_cpu.multi_Kd p) _ _ _ hscat
  have hfinal : ∀ i, (fwdData p
      (List.zipWith (fun s t => a * s + b * t) x1.data x2.data)).getD i 0 =
      a * (fwdData p x1.data).getD i 0 + b * (fwdData p x2.data).getD i 0 := by
    intro i
    unfold fwdData
    exact spDot_data_lin a b p.sp _ _ _ _ _ hF i
  have hlen1 : (fwdData p x1.data).length = (fwdData p x2.data).length := by
    unfold fwdData
    simp
  have hlen3 : (fwdData p
      (List.zipWith (fun s t => a * s + b * t) x1.data x2.data)).length =
      (fwdData p x1.data).length := by
    unfold fwdData
    simp
  apply List.ext_getElem
  · rw [hlen3, List.length_zipWith, hlen1, Nat.min_self]
  · intro i hi1 hi2
    rw [← List.getD_eq_getElem _ 0 hi1, ← List.getD_eq_getElem _ 0 hi2,
      hfinal i, zipWith_lin_getD a b _ _ hlen1 i]

end ForwardEq

/-- Witness for C7 at the concrete operator `pW`. -/
theorem C7_forward_linearity_witness :
    ∃ y1 y2 y3 : Arr GQ,
      NUFFT_cpu.forward pW ⟨[1], [⟨2, 1⟩]⟩ = .ok y1 ∧
      NUFFT_cpu.forward pW ⟨[1], [⟨0, 3⟩]⟩ = .ok y2 ∧
      NUFFT_cpu.forward pW
        ⟨pW.Nd, List.zipWith (fun s t => (⟨5, 0⟩ : GQ) * s + (⟨0, 7⟩ : GQ) * t)
          [⟨2, 1⟩] [⟨0, 3⟩]⟩ = .ok y3 ∧
      y3.shape = y1.shape ∧
      y3.data = List.zipWith (fun s t => (⟨5, 0⟩ : GQ) * s + (⟨0, 7⟩ : GQ) * t)
        y1.data y2.data :=
  C7_forward_linearity pW (by decide) (by decide) ⟨5, 0⟩ ⟨0, 7⟩
    ⟨[1], [⟨2, 1⟩]⟩ ⟨[1], [⟨0, 3⟩]⟩ (by decide) (by decide) (by decide)

section DualityHelpers

open NUFFT_cpu

variable {K : Type} [CommRing K] [StarRing K] [DecidableEq K]

theorem star_list_sum (l : List K) : star l.sum = (l.map star).sum := by
  induction l with
  | nil => simp
  | cons a l ih => simp [ih]

theorem star_list_prod (l : List K) : star l.prod = (l.map star).prod := by
  induction l with
  | nil => simp
  | cons a l ih =>
    simp only [List.prod_cons, List.map_cons]
    rw [star_mul, ih, mul_comm]

theorem finset_sum_list_sum {α : Type} (s : Finset ℕ) (l : List α) (g : ℕ → α → K) :
    ∑ i ∈ s, (l.map (g i)).sum = (l.map (fun e => ∑ i ∈ s, g i e)).sum := by
  induction l with
  | nil => simp
  | cons e l ih =>
    simp only [List.map_cons, List.sum_cons]
    rw [Finset.sum_add_distrib, ih]

theorem getD_map_mul (c : K) (d : List K) (i : ℕ) (hi : i < d.length) :
    (d.map (fun v => c * v)).getD i 0 = c * d.getD i 0 := by
  rw [List.getD_eq_getElem _ _ (by simpa using hi), List.getD_eq_getElem _ _ hi]
  simp

theorem innerL_map_mul_right (c : K) (u v : List K) (hlen : u.length = v.length) :
    innerL u (v.map (fun t => c * t)) = star c * innerL u v := by
  unfold innerL
  rw [Finset.mul_sum]
  refine Finset.sum_congr rfl (fun i hi => ?_)
  rw [Finset.mem_range] at hi
  rw [getD_map_mul c v i (by omega), star_mul, mul_comm (star (v.getD i 0)) (star c)]
  ring

/-- Duality of the sparse product against its conjugate transpose (the
single-column case). -/
theorem spDot_duality_single (A : SpMat K) (kv y : List K)
    (hbd : ∀ e ∈ A.entries, e.1 < A.M ∧ e.2.1 < A.N)
    (hkv : kv.length = A.N) :
    innerL ((List.range A.M).map (fun i =>
        (A.entries.map (fun e => if e.1 = i then e.2.2 * kv.getD e.2.1 0 else 0)).sum)) y
      = innerL kv ((List.range A.N).map (fun j =>
        ((A.getH).entries.map (fun e =>
          if e.1 = j then e.2.2 * y.getD e.2.1 0 else 0)).sum)) := by
  have hL : innerL ((List.range A.M).map (fun i =>
        (A.entries.map (fun e => if e.1 = i then e.2.2 * kv.getD e.2.1 0 else 0)).sum)) y
      = (A.entries.map (fun e =>
          e.2.2 * kv.getD e.2.1 0 * star (y.getD e.1 0))).sum := by
    rw [innerL_map_range]
    have h1 : ∀ i ∈ Finset.range A.M,
        (A.entries.map (fun e => if e.1 = i then e.2.2 * kv.getD e.2.1 0 else 0)).sum *
          star (y.getD i 0)
        = (A.entries.map (fun e =>
            if e.1 = i then e.2.2 * kv.getD e.2.1 0 * star (y.getD i 0) else 0)).sum := by
      intro i hi
      rw [← List.sum_map_mul_right]
      refine congrArg List.sum (List.map_congr_left (fun e he => ?_))
      rw [ite_mul, zero_mul]
    rw [Finset.sum_congr rfl h1, finset_sum_list_sum]
    refine congrArg List.sum (List.map_congr_left (fun e he => ?_))
    have he1 : e.1 < A.M := (hbd e he).1
    rw [Finset.sum_ite_eq (Finset.range A.M) e.1
      (fun i => e.2.2 * kv.getD e.2.1 0 * star (y.getD i 0)),
      if_pos (Finset.mem_range.mpr he1)]
  rw [hL]
  unfold innerL
  rw [hkv]
  have hR : ∀ j ∈ Finset.range A.N,
      kv.getD j 0 * star (((List.range A.N).map (fun j =>
        ((A.getH).entries.map (fun e =>
          if e.1 = j then e.2.2 * y.getD e.2.1 0 else 0)).sum)).getD j 0)
      = (A.entries.map (fun e =>
          if e.2.1 = j then kv.getD j 0 * (e.2.2 * star (y.getD e.1 0)) else 0)).sum := by
    intro j hj
    have hj' : j < A.N := Finset.mem_range.mp hj
    rw [map_range_getD _ _ j 0 hj']
    unfold SpMat.getH
    rw [List.map_map, star_list_sum, List.map_map]
    have hmap : ∀ e ∈ A.entries,
        (star ∘ ((fun e0 : ℕ × ℕ × K => if e0.1 = j then e0.2.2 * y.getD e0.2.1 0 else 0) ∘
          (fun e0 : ℕ × ℕ × K => (e0.2.1, e0.1, star e0.2.2)))) e
        = if e.2.1 = j then e.2.2 * star (y.getD e.1 0) else 0 := by
      intro e he
      simp only [Function.comp]
      by_cases hc : e.2.1 = j
      · rw [if_pos hc, if_pos hc, star_mul, star_star, mul_comm]
      · rw [if_neg hc, if_neg hc, star_zero]
    rw [List.map_congr_left hmap, ← List.sum_map_mul_left]
    refine congrArg List.sum (List.map_congr_left (fun e he => ?_))
    rw [mul_ite, mul_zero]
  rw [Finset.sum_congr rfl hR, finset_sum_list_sum]
  refine congrArg List.sum (List.map_congr_left (fun e he => ?_))
  have he2 : e.2.1 < A.N := (hbd e he).2
  rw [Finset.sum_ite_eq (Finset.range A.N) e.2.1
    (fun j => kv.getD j 0 * (e.2.2 * star (y.getD e.1 0))),
    if_pos (Finset.mem_range.mpr he2)]
  ring

/-- Inner product of a scattered buffer against an arbitrary vector: only
the written positions contribute. -/
theorem innerL_scatter (src : List K) (pairs : List (ℕ × ℕ)) (L : ℕ) (k : List K)
    (hnodup : (pairs.map Prod.snd).Nodup)
    (hbound : ∀ pr ∈ pairs, pr.2 < L) :
    innerL (copyPairs src pairs (List.replicate L (0 : K))) k =
      (pairs.map (fun pr => src.getD pr.1 0 * star (k.getD pr.2 0))).sum := by
  unfold innerL
  rw [NUFFT_cpu.copyPairs_length, List.length_replicate]
  have hchar := copyPairs_getD src pairs (List.replicate L (0 : K)) hnodup
    (by simpa using hbound)
  have hsub : (pairs.map Prod.snd).toFinset ⊆ Finset.range L := by
    intro i hi
    rw [List.mem_toFinset, List.mem_map] at hi
    obtain ⟨pr, hpr, rfl⟩ := hi
    exact Finset.mem_range.mpr (hbound pr hpr)
  have hzero : ∀ i ∈ Finset.range L, i ∉ (pairs.map Prod.snd).toFinset →
      (copyPairs src pairs (List.replicate L (0 : K))).getD i 0 * star (k.getD i 0) = 0 := by
    intro i hi hni
    have hnone : pairs.find? (fun pr => pr.2 == i) = none := by
      rw [List.find?_eq_none]
      intro pr hpr
      simp only [beq_iff_eq]
      intro hcon
      exact hni (by
        rw [List.mem_toFinset, List.mem_map]
        exact ⟨pr, hpr, hcon⟩)
    rw [hchar i, hnone]
    show (List.replicate L (0 : K)).getD i 0 * star (k.getD i 0) = 0
    rw [NUFFT_cpu.getD_replicate_zero, zero_mul]
  rw [← Finset.sum_subset hsub hzero, List.sum_toFinset _ hnodup, List.map_map]
  refine congrArg List.sum (List.map_congr_left (fun pr hpr => ?_))
  simp only [Function.comp]
  rw [hchar pr.2, find?_snd_eq pairs hnodup pr hpr]

/-- Inner product of a vector against a gathered buffer: only the written
positions contribute. -/
theorem innerL_gather (src : List K) (pairs : List (ℕ × ℕ)) (L : ℕ) (x : List K)
    (hnodup : (pairs.map Prod.snd).Nodup)
    (hbound : ∀ pr ∈ pairs, pr.2 < L)
    (hx : x.length = L) :
    innerL x (copyPairs src pairs (List.replicate L (0 : K))) =
      (pairs.map (fun pr => x.getD pr.2 0 * star (src.getD pr.1 0))).sum := by
  unfold innerL
  rw [hx]
  have hchar := copyPairs_getD src pairs (List.replicate L (0 : K)) hnodup
    (by simpa using hbound)
  have hsub : (pairs.map Prod.snd).toFinset ⊆ Finset.range L := by
    intro i hi
    rw [List.mem_toFinset, List.mem_map] at hi
    obtain ⟨pr, hpr, rfl⟩ := hi
    exact Finset.mem_range.mpr (hbound pr hpr)
  have hzero : ∀ i ∈ Finset.range L, i ∉ (pairs.map Prod.snd).toFinset →
      x.getD i 0 * star ((copyPairs src pairs (List.replicate L (0 : K))).getD i 0) = 0 := by
    intro i hi hni
    have hnone : pairs.find? (fun pr => pr.2 == i) = none := by
      rw [List.find?_eq_none]
      intro pr hpr
      simp only [beq_iff_eq]
      intro hcon
      exact hni (by
        rw [List.mem_toFinset, List.mem_map]
        exact ⟨pr, hpr, hcon⟩)
    rw [hchar i, hnone]
    show x.getD i 0 * star ((List.replicate L (0 : K)).getD i 0) = 0
    rw [NUFFT_cpu.getD_replicate_zero, star_zero, mul_zero]
  rw [← Finset.sum_subset hsub hzero, List.sum_toFinset _ hnodup, List.map_map]
  refine congrArg List.sum (List.map_congr_left (fun pr hpr => ?_))
  simp only [Function.comp]
  rw [hchar pr.2, find?_snd_eq pairs hnodup pr hpr]

end DualityHelpers

section DftDuality

open NUFFT_cpu

variable {K : Type} [CommRing K] [StarRing K] [DecidableEq K]

theorem set_getD_self_list (l : List ℕ) (n : ℕ) (h : n < l.length) :
    l.set n (l.getD n 0) = l := by
  induction l generalizing n with
  | nil => simp at h
  | cons a l ih =>
    cases n with
    | zero => simp [List.getD]
    | succ n =>
      simp only [List.set_cons_succ, List.getD_cons_succ]
      rw [ih n (by simpa using h)]

theorem set_idx_length (sh : List ℕ) (q1 q2 a : ℕ) :
    ((unflatten sh q1).set a q2).length = sh.length := by
  rw [List.length_set, unflatten_length]

theorem set_idx_bounded (sh : List ℕ) (a q1 q2 : ℕ) (ha : a < sh.length)
    (hq1 : q1 < sh.prod) (hq2 : q2 < sh.getD a 0) :
    ∀ d, ((unflatten sh q1).set a q2).getD d 0 < sh.getD d 1 := by
  intro d
  by_cases hc : a = d
  · subst hc
    rw [getD_set_self _ _ _ _ (by rw [unflatten_length]; exact ha)]
    have he : sh.getD a 1 = sh.getD a 0 := by
      rw [List.getD_eq_getElem _ _ ha, List.getD_eq_getElem _ _ ha]
    omega
  · rw [getD_set_ne _ _ _ _ _ hc]
    exact unflatten_bounded sh q1 hq1 d

theorem set_idx_flatten_lt (sh : List ℕ) (a q1 q2 : ℕ) (ha : a < sh.length)
    (hq1 : q1 < sh.prod) (hq2 : q2 < sh.getD a 0) :
    flatten sh ((unflatten sh q1).set a q2) < sh.prod :=
  flatten_lt _ _ (set_idx_length sh q1 q2 a) (set_idx_bounded sh a q1 q2 ha hq1 hq2)

theorem set_idx_unflatten (sh : List ℕ) (a q1 q2 : ℕ) (ha : a < sh.length)
    (hq1 : q1 < sh.prod) (hq2 : q2 < sh.getD a 0) :
    unflatten sh (flatten sh ((unflatten sh q1).set a q2)) = (unflatten sh q1).set a q2 :=
  unflatten_flatten _ _ (set_idx_length sh q1 q2 a) (set_idx_bounded sh a q1 q2 ha hq1 hq2)

theorem unflatten_getD_lt (sh : List ℕ) (a n : ℕ) (ha : a < sh.length) (hn : n < sh.prod) :
    (unflatten sh n).getD a 0 < sh.getD a 0 := by
  have hb := unflatten_bounded sh n hn a
  have he : sh.getD a 1 = sh.getD a 0 := by
    rw [List.getD_eq_getElem _ _ ha, List.getD_eq_getElem _ _ ha]
  omega

/-- Closed form of one entry of a single-axis DFT pass. -/
theorem dft1Core_entry (w : ℕ → K) (a : ℕ) (sh : List ℕ) (d : List K) (i : ℕ)
    (hi : i < sh.prod) :
    (dft1Core w a (⟨sh, d⟩ : Arr K)).data.getD i 0 =
      ∑ j ∈ Finset.range (sh.getD a 0), w ((unflatten sh i).getD a 0 * j) *
        d.getD (flatten sh ((unflatten sh i).set a j)) 0 := by
  unfold dft1Core
  exact map_range_getD _ _ i 0 hi

/-- Duality of a single-axis DFT pass: moving the pass to the other side
of the inner product conjugates the twiddle function. -/
theorem dft1_duality (w : ℕ → K) (a : ℕ) (sh : List ℕ) (x y : List K)
    (ha : a < sh.length) (hx : x.length = sh.prod) (hy : y.length = sh.prod) :
    innerL (dft1Core w a (⟨sh, x⟩ : Arr K)).data y =
      innerL x (dft1Core (fun t => star (w t)) a (⟨sh, y⟩ : Arr K)).data := by
  have hL : innerL (dft1Core w a (⟨sh, x⟩ : Arr K)).data y
      = ∑ q ∈ Finset.range sh.prod ×ˢ Finset.range (sh.getD a 0),
          w ((unflatten sh q.1).getD a 0 * q.2) *
            x.getD (flatten sh ((unflatten sh q.1).set a q.2)) 0 * star (y.getD q.1 0) := by
    unfold innerL
    rw [NUFFT_cpu.dft1Core_length]
    show (∑ i ∈ Finset.range sh.prod,
        (dft1Core w a (⟨sh, x⟩ : Arr K)).data.getD i 0 * star (y.getD i 0)) = _
    rw [Finset.sum_product]
    refine Finset.sum_congr rfl (fun i hi => ?_)
    rw [Finset.mem_range] at hi
    rw [dft1Core_entry w a sh x i hi, Finset.sum_mul]
  have hR : innerL x (dft1Core (fun t => star (w t)) a (⟨sh, y⟩ : Arr K)).data
      = ∑ q ∈ Finset.range sh.prod ×ˢ Finset.range (sh.getD a 0),
          x.getD q.1 0 * (star (y.getD (flatten sh ((unflatten sh q.1).set a q.2)) 0) *
            w ((unflatten sh q.1).getD a 0 * q.2)) := by
    unfold innerL
    rw [hx, Finset.sum_product]
    refine Finset.sum_congr rfl (fun i hi => ?_)
    rw [Finset.mem_range] at hi
    rw [dft1Core_entry (fun t => star (w t)) a sh y i hi, star_sum, Finset.mul_sum]
    refine Finset.sum_congr rfl (fun j hj => ?_)
    rw [star_mul, star_star]
  rw [hL, hR]
  refine Finset.sum_nbij'
    (fun q => (flatten sh ((unflatten sh q.1).set a q.2), (unflatten sh q.1).getD a 0))
    (fun q => (flatten sh ((unflatten sh q.1).set a q.2), (unflatten sh q.1).getD a 0))
    ?_ ?_ ?_ ?_ ?_
  · intro q hq
    obtain ⟨hq1, hq2⟩ := Finset.mem_product.mp hq
    rw [Finset.mem_range] at hq1 hq2
    refine Finset.mem_product.mpr ⟨Finset.mem_range.mpr ?_, Finset.mem_range.mpr ?_⟩
    · exact set_idx_flatten_lt sh a q.1 q.2 ha hq1 hq2
    · exact unflatten_getD_lt sh a q.1 ha hq1
  · intro q hq
    obtain ⟨hq1, hq2⟩ := Finset.mem_product.mp hq
    rw [Finset.mem_range] at hq1 hq2
    refine Finset.mem_product.mpr ⟨Finset.mem_range.mpr ?_, Finset.mem_range.mpr ?_⟩
    · exact set_idx_flatten_lt sh a q.1 q.2 ha hq1 hq2
    · exact unflatten_getD_lt sh a q.1 ha hq1
  · intro q hq
    obtain ⟨hq1, hq2⟩ := Finset.mem_product.mp hq
    rw [Finset.mem_range] at hq1 hq2
    have hA4 := set_idx_unflatten sh a q.1 q.2 ha hq1 hq2
    refine Prod.ext ?_ ?_
    · show flatten sh ((unflatten sh (flatten sh ((unflatten sh q.1).set a q.2))).set a
        ((unflatten sh q.1).getD a 0)) = q.1
      rw [hA4, List.set_set, set_getD_self_list _ _ (by rw [unflatten_length]; exact ha),
        flatten_unflatten sh q.1 hq1]
    · show (unflatten sh (flatten sh ((unflatten sh q.1).set a q.2))).getD a 0 = q.2
      rw [hA4, getD_set_self _ _ _ _ (by rw [unflatten_length]; exact ha)]
  · intro q hq
    obtain ⟨hq1, hq2⟩ := Finset.mem_product.mp hq
    rw [Finset.mem_range] at hq1 hq2
    have hA4 := set_idx_unflatten sh a q.1 q.2 ha hq1 hq2
    refine Prod.ext ?_ ?_
    · show flatten sh ((unflatten sh (flatten sh ((unflatten sh q.1).set a q.2))).set a
        ((unflatten sh q.1).getD a 0)) = q.1
      rw [hA4, List.set_set, set_getD_self_list _ _ (by rw [unflatten_length]; exact ha),
        flatten_unflatten sh q.1 hq1]
    · show (unflatten sh (flatten sh ((unflatten sh q.1).set a q.2))).getD a 0 = q.2
      rw [hA4, getD_set_self _ _ _ _ (by rw [unflatten_length]; exact ha)]
  · intro q hq
    obtain ⟨hq1, hq2⟩ := Finset.mem_product.mp hq
    rw [Finset.mem_range] at hq1 hq2
    have hA4 := set_idx_unflatten sh a q.1 q.2 ha hq1 hq2
    have h1 : (unflatten sh (flatten sh ((unflatten sh q.1).set a q.2))).getD a 0 = q.2 := by
      rw [hA4, getD_set_self _ _ _ _ (by rw [unflatten_length]; exact ha)]
    have h2 : flatten sh ((unflatten sh (flatten sh ((unflatten sh q.1).set a q.2))).set a
        ((unflatten sh q.1).getD a 0)) = q.1 := by
      rw [hA4, List.set_set, set_getD_self_list _ _ (by rw [unflatten_length]; exact ha),
        flatten_unflatten sh q.1 hq1]
    show w ((unflatten sh q.1).getD a 0 * q.2) *
        x.getD (flatten sh ((unflatten sh q.1).set a q.2)) 0 * star (y.getD q.1 0)
      = x.getD (flatten sh ((unflatten sh q.1).set a q.2)) 0 *
        (star (y.getD (flatten sh ((unflatten sh (flatten sh ((unflatten sh q.1).set a q.2))).set a
          ((unflatten sh q.1).getD a 0))) 0) *
          w ((unflatten sh (flatten sh ((unflatten sh q.1).set a q.2))).getD a 0 *
            ((unflatten sh q.1).getD a 0)))
    rw [h2, h1, Nat.mul_comm q.2 ((unflatten sh q.1).getD a 0)]
    ring

end DftDuality

section DftFold

open NUFFT_cpu

variable {K : Type} [CommRing K] [StarRing K] [DecidableEq K]

/-- Pointwise-equal twiddle functions give equal DFT passes. -/
theorem dft1Core_congr (w1 w2 : ℕ → K) (a : ℕ) (x : Arr K) (h : ∀ t, w1 t = w2 t) :
    dft1Core w1 a x = dft1Core w2 a x := by
  have hw : w1 = w2 := funext h
  rw [hw]

/-- DFT passes along two distinct axes commute. -/
theorem dft1Core_comm (w1 w2 : ℕ → K) (a b : ℕ) (sh : List ℕ) (d : List K)
    (hab : a ≠ b) (ha : a < sh.length) (hb : b < sh.length) :
    dft1Core w1 a (dft1Core w2 b (⟨sh, d⟩ : Arr K)) =
      dft1Core w2 b (dft1Core w1 a (⟨sh, d⟩ : Arr K)) := by
  have hdata : (dft1Core w1 a (dft1Core w2 b (⟨sh, d⟩ : Arr K))).data
      = (dft1Core w2 b (dft1Core w1 a (⟨sh, d⟩ : Arr K))).data := by
    show (List.range sh.prod).map (fun i => ∑ j ∈ Finset.range (sh.getD a 0),
        w1 ((unflatten sh i).getD a 0 * j) *
          (dft1Core w2 b (⟨sh, d⟩ : Arr K)).data.getD
            (flatten sh ((unflatten sh i).set a j)) 0)
      = (List.range sh.prod).map (fun i => ∑ j ∈ Finset.range (sh.getD b 0),
        w2 ((unflatten sh i).getD b 0 * j) *
          (dft1Core w1 a (⟨sh, d⟩ : Arr K)).data.getD
            (flatten sh ((unflatten sh i).set b j)) 0)
    refine List.map_congr_left (fun i hi => ?_)
    rw [List.mem_range] at hi
    have hLi : (∑ j ∈ Finset.range (sh.getD a 0), w1 ((unflatten sh i).getD a 0 * j) *
        (dft1Core w2 b (⟨sh, d⟩ : Arr K)).data.getD
          (flatten sh ((unflatten sh i).set a j)) 0)
      = ∑ j ∈ Finset.range (sh.getD a 0), ∑ j2 ∈ Finset.range (sh.getD b 0),
          w1 ((unflatten sh i).getD a 0 * j) * (w2 ((unflatten sh i).getD b 0 * j2) *
            d.getD (flatten sh (((unflatten sh i).set a j).set b j2)) 0) := by
      refine Finset.sum_congr rfl (fun j hj => ?_)
      rw [Finset.mem_range] at hj
      rw [dft1Core_entry w2 b sh d _ (set_idx_flatten_lt sh a i j ha hi hj), Finset.mul_sum]
      refine Finset.sum_congr rfl (fun j2 hj2 => ?_)
      rw [set_idx_unflatten sh a i j ha hi hj, getD_set_ne _ _ _ _ _ hab]
    have hRi : (∑ j ∈ Finset.range (sh.getD b 0), w2 ((unflatten sh i).getD b 0 * j) *
        (dft1Core w1 a (⟨sh, d⟩ : Arr K)).data.getD
          (flatten sh ((unflatten sh i).set b j)) 0)
      = ∑ j ∈ Finset.range (sh.getD b 0), ∑ j2 ∈ Finset.range (sh.getD a 0),
          w2 ((unflatten sh i).getD b 0 * j) * (w1 ((unflatten sh i).getD a 0 * j2) *
            d.getD (flatten sh (((unflatten sh i).set b j).set a j2)) 0) := by
      refine Finset.sum_congr rfl (fun j hj => ?_)
      rw [Finset.mem_range] at hj
      rw [dft1Core_entry w1 a sh d _ (set_idx_flatten_lt sh b i j hb hi hj), Finset.mul_sum]
      refine Finset.sum_congr rfl (fun j2 hj2 => ?_)
      rw [set_idx_unflatten sh b i j hb hi hj, getD_set_ne _ _ _ _ _ (Ne.symm hab)]
    rw [hLi, hRi, Finset.sum_comm]
    refine Finset.sum_congr rfl (fun j2 hj2 => Finset.sum_congr rfl (fun j hj => ?_))
    rw [List.set_comm _ _ _ hab]
    ring
  calc dft1Core w1 a (dft1Core w2 b (⟨sh, d⟩ : Arr K))
      = ⟨sh, (dft1Core w1 a (dft1Core w2 b (⟨sh, d⟩ : Arr K))).data⟩ := rfl
    _ = ⟨sh, (dft1Core w2 b (dft1Core w1 a (⟨sh, d⟩ : Arr K))).data⟩ := by rw [hdata]
    _ = dft1Core w2 b (dft1Core w1 a (⟨sh, d⟩ : Arr K)) := rfl

/-- A DFT pass commutes with pointwise scaling of the data. -/
theorem dft1Core_scale (w : ℕ → K) (a : ℕ) (sh : List ℕ) (d : List K) (c : K)
    (ha : a < sh.length) (hd : d.length = sh.prod) :
    dft1Core w a (⟨sh, d.map (fun v => c * v)⟩ : Arr K) =
      ⟨sh, (dft1Core w a (⟨sh, d⟩ : Arr K)).data.map (fun v => c * v)⟩ := by
  have hdata : (dft1Core w a (⟨sh, d.map (fun v => c * v)⟩ : Arr K)).data
      = (dft1Core w a (⟨sh, d⟩ : Arr K)).data.map (fun v => c * v) := by
    show (List.range sh.prod).map (fun i => ∑ j ∈ Finset.range (sh.getD a 0),
        w ((unflatten sh i).getD a 0 * j) *
          (d.map (fun v => c * v)).getD (flatten sh ((unflatten sh i).set a j)) 0)
      = ((List.range sh.prod).map (fun i => ∑ j ∈ Finset.range (sh.getD a 0),
        w ((unflatten sh i).getD a 0 * j) *
          d.getD (flatten sh ((unflatten sh i).set a j)) 0)).map (fun v => c * v)
    rw [List.map_map]
    refine List.map_congr_left (fun i hi => ?_)
    rw [List.mem_range] at hi
    simp only [Function.comp]
    rw [Finset.mul_sum]
    refine Finset.sum_congr rfl (fun j hj => ?_)
    rw [Finset.mem_range] at hj
    rw [getD_map_mul c d _ (by rw [hd]; exact set_idx_flatten_lt sh a i j ha hi hj)]
    ring
  calc dft1Core w a (⟨sh, d.map (fun v => c * v)⟩ : Arr K)
      = ⟨sh, (dft1Core w a (⟨sh, d.map (fun v => c * v)⟩ : Arr K)).data⟩ := rfl
    _ = ⟨sh, (dft1Core w a (⟨sh, d⟩ : Arr K)).data.map (fun v => c * v)⟩ := by rw [hdata]

theorem dftW_foldl_shape (W : ℕ → ℕ → K) (axes : List ℕ) (x : Arr K) :
    (axes.foldl (fun acc a => dft1Core (W a) a acc) x).shape = x.shape := by
  induction axes generalizing x with
  | nil => rfl
  | cons a as ih => rw [List.foldl_cons, ih, NUFFT_cpu.dft1Core_shape]

theorem dftW_foldl_length (W : ℕ → ℕ → K) (axes : List ℕ) (x : Arr K)
    (hx : x.data.length = x.shape.prod) :
    (axes.foldl (fun acc a => dft1Core (W a) a acc) x).data.length = x.shape.prod := by
  induction axes generalizing x with
  | nil => exact hx
  | cons a as ih =>
    rw [List.foldl_cons,
      ih _ (by rw [NUFFT_cpu.dft1Core_length, NUFFT_cpu.dft1Core_shape]),
      NUFFT_cpu.dft1Core_shape]

theorem dftW_foldr_shape (W : ℕ → ℕ → K) (axes : List ℕ) (x : Arr K) :
    (axes.foldr (fun a acc => dft1Core (W a) a acc) x).shape = x.shape := by
  induction axes with
  | nil => rfl
  | cons a as ih => rw [List.foldr_cons, NUFFT_cpu.dft1Core_shape, ih]

theorem dftW_foldr_length (W : ℕ → ℕ → K) (axes : List ℕ) (x : Arr K)
    (hx : x.data.length = x.shape.prod) :
    (axes.foldr (fun a acc => dft1Core (W a) a acc) x).data.length = x.shape.prod := by
  induction axes with
  | nil => exact hx
  | cons a as ih => rw [List.foldr_cons, NUFFT_cpu.dft1Core_length, dftW_foldr_shape]

end DftFold

section DftChain

open NUFFT_cpu

variable {K : Type} [CommRing K] [StarRing K] [DecidableEq K]

theorem dftW_comm_step (W : ℕ → ℕ → K) (a b : ℕ) (sh : List ℕ) (z : Arr K)
    (hz : z.shape = sh) (ha : a < sh.length) (hb : b < sh.length) :
    dft1Core (W a) a (dft1Core (W b) b z) = dft1Core (W b) b (dft1Core (W a) a z) := by
  obtain ⟨zsh, zd⟩ := z
  have hz2 : zsh = sh := hz
  subst hz2
  by_cases hab : a = b
  · subst hab; rfl
  · exact dft1Core_comm (W a) (W b) a b zsh zd hab ha hb

theorem dftW_foldl_push (W : ℕ → ℕ → K) (a : ℕ) (as : List ℕ) (sh : List ℕ) (x : Arr K)
    (hx : x.shape = sh) (ha : a < sh.length) (has : ∀ b ∈ as, b < sh.length) :
    as.foldl (fun acc b => dft1Core (W b) b acc) (dft1Core (W a) a x) =
      dft1Core (W a) a (as.foldl (fun acc b => dft1Core (W b) b acc) x) := by
  induction as generalizing x with
  | nil => rfl
  | cons b bs ih =>
    rw [List.foldl_cons, List.foldl_cons]
    rw [dftW_comm_step W b a sh x hx (has b (List.mem_cons_self b bs)) ha]
    exact ih (dft1Core (W b) b x) (by rw [NUFFT_cpu.dft1Core_shape]; exact hx)
      (fun c hc => has c (List.mem_cons_of_mem _ hc))

theorem dftW_foldl_eq_foldr (W : ℕ → ℕ → K) (axes : List ℕ) (sh : List ℕ) (x : Arr K)
    (hx : x.shape = sh) (hax : ∀ a ∈ axes, a < sh.length) :
    axes.foldl (fun acc a => dft1Core (W a) a acc) x =
      axes.foldr (fun a acc => dft1Core (W a) a acc) x := by
  induction axes generalizing x with
  | nil => rfl
  | cons a as ih =>
    rw [List.foldl_cons, List.foldr_cons]
    rw [dftW_foldl_push W a as sh x hx (hax a (List.mem_cons_self a as))
      (fun b hb => hax b (List.mem_cons_of_mem _ hb))]
    rw [ih x hx (fun b hb => hax b (List.mem_cons_of_mem _ hb))]

theorem dftW_fold_scale (W : ℕ → ℕ → K) (as : List ℕ) (sh : List ℕ) (d : List K) (c : K)
    (has : ∀ a ∈ as, a < sh.length) (hd : d.length = sh.prod) :
    as.foldl (fun acc a => dft1Core (W a) a acc) (⟨sh, d.map (fun v => c * v)⟩ : Arr K) =
      ⟨sh, (as.foldl (fun acc a => dft1Core (W a) a acc) (⟨sh, d⟩ : Arr K)).data.map
        (fun v => c * v)⟩ := by
  induction as generalizing d with
  | nil => rfl
  | cons a as ih =>
    rw [List.foldl_cons, List.foldl_cons]
    rw [dft1Core_scale (W a) a sh d c (has a (List.mem_cons_self a as)) hd]
    rw [ih ((dft1Core (W a) a (⟨sh, d⟩ : Arr K)).data)
      (fun b hb => has b (List.mem_cons_of_mem _ hb))
      (by rw [NUFFT_cpu.dft1Core_length])]
    have heta : (⟨sh, (dft1Core (W a) a (⟨sh, d⟩ : Arr K)).data⟩ : Arr K)
        = dft1Core (W a) a (⟨sh, d⟩ : Arr K) := rfl
    rw [heta]

/-- Chain duality: a foldl of DFT passes dualizes to a foldr of
conjugate-twiddle passes on the other side of the inner product. -/
theorem dft_chain_duality (W : ℕ → ℕ → K) (axes : List ℕ) (sh : List ℕ) (x y : List K)
    (hax : ∀ a ∈ axes, a < sh.length) (hx : x.length = sh.prod) (hy : y.length = sh.prod) :
    innerL (axes.foldl (fun acc a => dft1Core (W a) a acc) (⟨sh, x⟩ : Arr K)).data y =
      innerL x (axes.foldr (fun a acc => dft1Core (fun t => star (W a t)) a acc)
        (⟨sh, y⟩ : Arr K)).data := by
  induction axes generalizing x hx with
  | nil => rfl
  | cons a as ih =>
    rw [List.foldl_cons, List.foldr_cons]
    have h1 := ih ((dft1Core (W a) a (⟨sh, x⟩ : Arr K)).data)
      (fun b hb => hax b (List.mem_cons_of_mem _ hb))
      (by rw [NUFFT_cpu.dft1Core_length])
    have heta : (⟨sh, (dft1Core (W a) a (⟨sh, x⟩ : Arr K)).data⟩ : Arr K)
        = dft1Core (W a) a (⟨sh, x⟩ : Arr K) := rfl
    rw [heta] at h1
    rw [h1]
    have hY : (as.foldr (fun a acc => dft1Core (fun t => star (W a t)) a acc)
        (⟨sh, y⟩ : Arr K)).data.length = sh.prod :=
      dftW_foldr_length (fun a => fun t => star (W a t)) as (⟨sh, y⟩ : Arr K) hy
    have h2 := dft1_duality (W a) a sh x
      ((as.foldr (fun a acc => dft1Core (fun t => star (W a t)) a acc)
        (⟨sh, y⟩ : Arr K)).data)
      (hax a (List.mem_cons_self a as)) hx hY
    rw [h2]
    have h3 : as.foldr (fun a acc => dft1Core (fun t => star (W a t)) a acc)
        (⟨sh, y⟩ : Arr K)
        = ⟨sh, (as.foldr (fun a acc => dft1Core (fun t => star (W a t)) a acc)
          (⟨sh, y⟩ : Arr K)).data⟩ := by
      have hsh := dftW_foldr_shape (fun a => fun t => star (W a t)) as (⟨sh, y⟩ : Arr K)
      calc as.foldr (fun a acc => dft1Core (fun t => star (W a t)) a acc) (⟨sh, y⟩ : Arr K)
          = ⟨(as.foldr (fun a acc => dft1Core (fun t => star (W a t)) a acc)
              (⟨sh, y⟩ : Arr K)).shape,
            (as.foldr (fun a acc => dft1Core (fun t => star (W a t)) a acc)
              (⟨sh, y⟩ : Arr K)).data⟩ := rfl
        _ = _ := by rw [hsh]
    rw [← h3]

/-- The running-shape twiddle used by `fftn` agrees with the fixed-shape
twiddle along the whole fold. -/
theorem fftn_fold_eq_W (root : ℕ → K) (axes : List ℕ) (sh : List ℕ) (x : Arr K)
    (hx : x.shape = sh) :
    axes.foldl (fun acc a => dft1Core (fun t => root (acc.shape.getD a 0) ^ t) a acc) x =
      axes.foldl (fun acc a => dft1Core (fun t => root (sh.getD a 0) ^ t) a acc) x := by
  induction axes generalizing x with
  | nil => rfl
  | cons a as ih =>
    rw [List.foldl_cons, List.foldl_cons, hx]
    exact ih (dft1Core (fun t => root (sh.getD a 0) ^ t) a x)
      (by rw [NUFFT_cpu.dft1Core_shape]; exact hx)

/-- The `ifftn` fold is the conjugate-twiddle DFT fold scaled by the product
of the `1/s` factors of the transformed axes. -/
theorem ifft_fold_eq (root invN : ℕ → K) (axes : List ℕ) (sh : List ℕ) (y : List K)
    (hax : ∀ a ∈ axes, a < sh.length) (hy : y.length = sh.prod) :
    axes.foldl (fun acc a => ifft1Core root invN a acc) (⟨sh, y⟩ : Arr K) =
      ⟨sh, ((axes.foldl (fun acc a => dft1Core (fun t => star (root (sh.getD a 0)) ^ t) a acc)
        (⟨sh, y⟩ : Arr K)).data).map
          (fun v => (axes.map (fun a => invN (sh.getD a 0))).prod * v)⟩ := by
  induction axes generalizing y hy with
  | nil =>
    show (⟨sh, y⟩ : Arr K) = ⟨sh, y.map (fun v =>
      (List.map (fun a => invN (sh.getD a 0)) []).prod * v)⟩
    simp
  | cons a as ih =>
    rw [List.foldl_cons, List.foldl_cons]
    have hstep : ifft1Core root invN a (⟨sh, y⟩ : Arr K)
        = ⟨sh, ((dft1Core (fun t => star (root (sh.getD a 0)) ^ t) a
            (⟨sh, y⟩ : Arr K)).data).map (fun v => invN (sh.getD a 0) * v)⟩ := rfl
    rw [hstep]
    rw [ih (((dft1Core (fun t => star (root (sh.getD a 0)) ^ t) a
        (⟨sh, y⟩ : Arr K)).data).map (fun v => invN (sh.getD a 0) * v))
      (fun b hb => hax b (List.mem_cons_of_mem _ hb))
      (by rw [List.length_map, NUFFT_cpu.dft1Core_length])]
    rw [dftW_fold_scale (fun b => fun t => star (root (sh.getD b 0)) ^ t) as sh
      ((dft1Core (fun t => star (root (sh.getD a 0)) ^ t) a (⟨sh, y⟩ : Arr K)).data)
      (invN (sh.getD a 0))
      (fun b hb => hax b (List.mem_cons_of_mem _ hb))
      (by rw [NUFFT_cpu.dft1Core_length])]
    have heta : (⟨sh, (dft1Core (fun t => star (root (sh.getD a 0)) ^ t) a
        (⟨sh, y⟩ : Arr K)).data⟩ : Arr K)
        = dft1Core (fun t => star (root (sh.getD a 0)) ^ t) a (⟨sh, y⟩ : Arr K) := rfl
    rw [heta]
    refine congrArg (Arr.mk sh) ?_
    rw [List.map_map]
    refine List.map_congr_left (fun v hv => ?_)
    simp only [Function.comp, List.map_cons, List.prod_cons]
    ring

end DftChain

section C1Helpers

open NUFFT_cpu

variable {K : Type} [CommRing K] [StarRing K] [DecidableEq K]

theorem range_map_getD (l : List ℕ) :
    (List.range l.length).map (fun a => l.getD a 0) = l := by
  refine List.ext_getElem (by simp) (fun i h1 h2 => ?_)
  rw [List.getElem_map, List.getElem_range, List.getD_eq_getElem _ _ h2]

/-- Moving a real (self-conjugate) pointwise factor across the inner
product. -/
theorem innerL_scale_real (xd snd g : List K) (n : ℕ) (hx : xd.length = n)
    (hsn : snd.length = n) (hreal : ∀ v ∈ snd, star v = v) :
    innerL xd ((List.range n).map (fun i => g.getD i 0 * snd.getD i 0)) =
      innerL ((List.range n).map (fun i => xd.getD i 0 * snd.getD i 0)) g := by
  unfold innerL
  rw [hx, List.length_map, List.length_range]
  refine Finset.sum_congr rfl (fun i hi => ?_)
  rw [Finset.mem_range] at hi
  rw [map_range_getD _ _ i 0 hi, map_range_getD _ _ i 0 hi]
  have hmem : snd.getD i 0 ∈ snd := by
    rw [List.getD_eq_getElem _ _ (by omega)]
    exact List.getElem_mem _
  rw [star_mul, hreal _ hmem]
  ring

/-- Core duality of the single-channel pipeline: sparse interpolation after
an FFT over a scattered buffer, against gridding followed by the inverse
FFT and a gather, differ exactly by the factor `prod Kd` that `ifftn`
normalizes away. -/
theorem inner_chain_duality (root invN : ℕ → K) (Kd : List ℕ) (A : SpMat K)
    (cIdx : List (ℕ × ℕ)) (NP : ℕ) (xxd yd : List K)
    (hbd : ∀ e ∈ A.entries, e.1 < A.M ∧ e.2.1 < A.N)
    (hAN : A.N = Kd.prod)
    (hsnodup : (cIdx.map Prod.snd).Nodup)
    (hfnodup : (cIdx.map Prod.fst).Nodup)
    (hcb : ∀ pr ∈ cIdx, pr.1 < NP ∧ pr.2 < Kd.prod)
    (hinv : ∀ s ∈ Kd, (s : K) * star (invN s) = 1)
    (hxxd : xxd.length = NP) :
    innerL ((List.range A.M).map (fun i => (A.entries.map (fun e =>
        if e.1 = i then e.2.2 * ((List.range Kd.length).foldl (fun acc a =>
          dft1Core (fun t => root (Kd.getD a 0) ^ t) a acc)
          (⟨Kd, copyPairs xxd cIdx (List.replicate Kd.prod 0)⟩ : Arr K)).data.getD e.2.1 0
        else 0)).sum)) yd
    = (Kd.prod : K) * innerL xxd
        (copyPairs ((List.range Kd.length).foldl (fun acc a => ifft1Core root invN a acc)
          (⟨Kd, (List.range A.N).map (fun j => ((A.getH).entries.map (fun e =>
            if e.1 = j then e.2.2 * yd.getD e.2.1 0 else 0)).sum)⟩ : Arr K)).data
          (cIdx.map Prod.swap) (List.replicate NP 0)) := by
  have hax : ∀ a ∈ List.range Kd.length, a < Kd.length := fun a ha => List.mem_range.mp ha
  have hsc : (copyPairs xxd cIdx (List.replicate Kd.prod (0 : K))).length = Kd.prod := by
    rw [NUFFT_cpu.copyPairs_length, List.length_replicate]
  have hD1len : ((List.range A.N).map (fun j => ((A.getH).entries.map (fun e =>
      if e.1 = j then e.2.2 * yd.getD e.2.1 0 else 0)).sum)).length = Kd.prod := by
    rw [List.length_map, List.length_range, hAN]
  have hFDlen : ((List.range Kd.length).foldl (fun acc a =>
      dft1Core (fun t => star (root (Kd.getD a 0)) ^ t) a acc)
      (⟨Kd, (List.range A.N).map (fun j => ((A.getH).entries.map (fun e =>
        if e.1 = j then e.2.2 * yd.getD e.2.1 0 else 0)).sum)⟩ : Arr K)).data.length
      = Kd.prod :=
    dftW_foldl_length (fun a => fun t => star (root (Kd.getD a 0)) ^ t)
      (List.range Kd.length) _ hD1len
  rw [spDot_duality_single A _ yd hbd (by
    have h := dftW_foldl_length (fun a => fun t => root (Kd.getD a 0) ^ t)
      (List.range Kd.length)
      (⟨Kd, copyPairs xxd cIdx (List.replicate Kd.prod 0)⟩ : Arr K) hsc
    rw [hAN]
    exact h)]
  rw [dft_chain_duality (fun a => fun t => root (Kd.getD a 0) ^ t) (List.range Kd.length)
    Kd (copyPairs xxd cIdx (List.replicate Kd.prod 0))
    ((List.range A.N).map (fun j => ((A.getH).entries.map (fun e =>
      if e.1 = j then e.2.2 * yd.getD e.2.1 0 else 0)).sum)) hax hsc hD1len]
  rw [← dftW_foldl_eq_foldr (fun a => fun t => star (root (Kd.getD a 0) ^ t))
    (List.range Kd.length) Kd _ rfl hax]
  have hstepf : (fun (acc : Arr K) (a : ℕ) =>
        dft1Core (fun t => star (root (Kd.getD a 0) ^ t)) a acc)
      = (fun acc a => dft1Core (fun t => star (root (Kd.getD a 0)) ^ t) a acc) := by
    funext acc a
    exact dft1Core_congr _ _ a acc (fun t => star_pow _ _)
  rw [hstepf]
  have hifft : ((List.range Kd.length).foldl (fun acc a => ifft1Core root invN a acc)
      (⟨Kd, (List.range A.N).map (fun j => ((A.getH).entries.map (fun e =>
        if e.1 = j then e.2.2 * yd.getD e.2.1 0 else 0)).sum)⟩ : Arr K)).data
      = (((List.range Kd.length).foldl (fun acc a =>
          dft1Core (fun t => star (root (Kd.getD a 0)) ^ t) a acc)
          (⟨Kd, (List.range A.N).map (fun j => ((A.getH).entries.map (fun e =>
            if e.1 = j then e.2.2 * yd.getD e.2.1 0 else 0)).sum)⟩ : Arr K)).data).map
        (fun v => ((List.range Kd.length).map (fun a => invN (Kd.getD a 0))).prod * v) := by
    rw [ifft_fold_eq root invN (List.range Kd.length) Kd _ hax hD1len]
  rw [hifft]
  set FD := ((List.range Kd.length).foldl (fun acc a =>
      dft1Core (fun t => star (root (Kd.getD a 0)) ^ t) a acc)
      (⟨Kd, (List.range A.N).map (fun j => ((A.getH).entries.map (fun e =>
        if e.1 = j then e.2.2 * yd.getD e.2.1 0 else 0)).sum)⟩ : Arr K)).data with hFDdef
  set Pv := ((List.range Kd.length).map (fun a => invN (Kd.getD a 0))).prod with hPvdef
  have hsnodup2 : ((cIdx.map Prod.swap).map Prod.snd).Nodup := by
    rw [List.map_map]
    exact hfnodup
  rw [innerL_gather (FD.map (fun v => Pv * v)) (cIdx.map Prod.swap) NP xxd hsnodup2 (by
    intro pr hpr
    rw [List.mem_map] at hpr
    obtain ⟨q, hq, rfl⟩ := hpr
    exact (hcb q hq).1) hxxd]
  rw [innerL_scatter xxd cIdx Kd.prod FD hsnodup (fun pr hpr => (hcb pr hpr).2)]
  rw [List.map_map]
  have hpt : ∀ pr ∈ cIdx,
      ((fun pr : ℕ × ℕ => xxd.getD pr.2 0 * star ((FD.map (fun v => Pv * v)).getD pr.1 0))
        ∘ Prod.swap) pr
      = star Pv * (xxd.getD pr.1 0 * star (FD.getD pr.2 0)) := by
    intro pr hpr
    show xxd.getD pr.1 0 * star ((FD.map (fun v => Pv * v)).getD pr.2 0) = _
    rw [getD_map_mul Pv FD pr.2 (by rw [hFDlen]; exact (hcb pr hpr).2), star_mul]
    ring
  rw [List.map_congr_left hpt, List.sum_map_mul_left]
  have hKdid : (List.range Kd.length).map (fun a => Kd.getD a 0) = Kd := range_map_getD Kd
  have hprod : (Kd.prod : K) * star Pv = 1 := by
    rw [hPvdef, star_list_prod, List.map_map]
    have hcast : ((Kd.prod : ℕ) : K)
        = ((List.range Kd.length).map (fun a => ((Kd.getD a 0 : ℕ) : K))).prod := by
      conv_lhs => rw [← hKdid]
      rw [Nat.cast_list_prod, List.map_map]
      rfl
    rw [hcast, ← List.prod_map_mul]
    refine List.prod_eq_one (fun v hv => ?_)
    rw [List.mem_map] at hv
    obtain ⟨a, ha, rfl⟩ := hv
    rw [List.mem_range] at ha
    show ((Kd.getD a 0 : ℕ) : K) * star (invN (Kd.getD a 0)) = 1
    exact hinv (Kd.getD a 0) (by
      rw [List.getD_eq_getElem _ _ ha]
      exact List.getElem_mem _)
  rw [← mul_assoc, hprod, one_mul]

end C1Helpers

section C1Main

open NUFFT_cpu

variable {K : Type} [CommRing K] [StarRing K] [DecidableEq K]

/-- Single-channel closed form of `fwdData`: with no batch axis the sparse
product has one column. -/
theorem fwdData_single (p : Plan K) (hpf : p.parallel_flag = false) (xd : List K) :
    fwdData p xd = (List.range p.sp.M).map (fun i =>
      (p.sp.entries.map (fun e => if e.1 = i then
        e.2.2 * (p.ft_axes.foldl (fun acc a =>
          dft1Core (fun t => p.root (acc.shape.getD a 0) ^ t) a acc)
          (⟨NUFFT_cpu.multi_Kd p, copyPairs ((List.range p.Nd.prod).map
            (fun i => xd.getD i 0 * p.sn.data.getD i 0)) (NUFFT_cpu.copyIdx p)
            (List.replicate ((NUFFT_cpu.multi_Kd p).prod) 0)⟩ : Arr K)).data.getD e.2.1 0
        else 0)).sum) := by
  have hmpk : NUFFT_cpu.multi_prodKd p = [p.Kd.prod] := by
    unfold NUFFT_cpu.multi_prodKd
    rw [hpf]
    rfl
  unfold fwdData
  rw [hmpk]
  simp only [List.tail_cons, List.prod_nil, Nat.mul_one, Nat.div_one, Nat.mod_one,
    Nat.add_zero]

/-- C1 (amended): over exact arithmetic `forward` and `adjoint` are adjoint
only up to the factor `prod(Kd)`: `⟨forward(x), y⟩ = prod(Kd) · ⟨x, adjoint(y)⟩`
for a single-channel plan with default transform axes, real scaling factors
and `invN s` the exact inverse of `s`. -/
theorem C1_adjoint_duality_scaled (p : Plan K) (hWF : NUFFT_cpu.PlanWF p)
    (hpf : p.parallel_flag = false)
    (haxdef : p.ft_axes = List.range p.ndims)
    (hsnreal : ∀ v ∈ p.sn.data, star v = v)
    (hinv : ∀ s ∈ p.Kd, (s : K) * star (p.invN s) = 1)
    (x y : Arr K) (hx : x.shape = p.Nd) (hxl : x.data.length = p.Nd.prod)
    (hy : y.shape = [p.M]) :
    ∃ fy ax : Arr K,
      NUFFT_cpu.forward p x = .ok fy ∧ NUFFT_cpu.adjoint p y = .ok ax ∧
      innerA fy y = (p.Kd.prod : K) * innerA x ax := by
  obtain ⟨ysh, yd⟩ := y
  have hysh : ysh = [p.M] := hy
  subst hysh
  have hwf2 := hWF
  obtain ⟨h1, h2, h3, h4, h5, h6, h7, h8, h9, h10, h11, h12, h13, h14⟩ := hwf2
  have hb1 : p.batch = 1 := h7 hpf
  have hmk : NUFFT_cpu.multi_Kd p = p.Kd := by
    unfold NUFFT_cpu.multi_Kd
    rw [hpf]
    rfl
  have hmn : NUFFT_cpu.multi_Nd p = p.Nd := by
    unfold NUFFT_cpu.multi_Nd
    rw [hpf]
    rfl
  have haxKd : p.ft_axes = List.range p.Kd.length := by rw [haxdef, h1, h2]
  have hfnodup : ((NUFFT_cpu.copyIdx p).map Prod.fst).Nodup := by
    have h := NUFFT_cpu.gatherIdx_snd_nodup p hWF
    rw [NUFFT_cpu.gatherIdx_eq_swap p, List.map_map] at h
    have he : (Prod.snd ∘ fun pr : ℕ × ℕ => (pr.2, pr.1)) = (Prod.fst : ℕ × ℕ → ℕ) := rfl
    rw [he] at h
    exact h
  have hadj : NUFFT_cpu.adjoint p ⟨[p.M], yd⟩ = .ok ⟨p.Nd, (List.range p.Nd.prod).map (fun i =>
      (copyPairs (p.ft_axes.foldl (fun acc a => ifft1Core p.root p.invN a acc)
          (⟨p.Kd, (List.range p.Kd.prod).map (fun j => (p.spH.entries.map (fun e =>
            if e.1 = j then e.2.2 * yd.getD e.2.1 0 else 0)).sum)⟩ : Arr K)).data
        (NUFFT_cpu.gatherIdx p) (List.replicate p.Nd.prod 0)).getD i 0 *
      p.sn.data.getD i 0)⟩ := by
    unfold NUFFT_cpu.adjoint NUFFT_cpu.y2k NUFFT_cpu.y2vec NUFFT_cpu.xx2x
    rw [NUFFT_cpu.spDot_ok p.spH ⟨[p.M], yd⟩ (by
      show some p.M = some p.spH.N
      rw [NUFFT_cpu.wf_spH_N p hWF]) (by
      show ([p.M] : List ℕ).length ≤ 2
      simp), ok_bind]
    rw [NUFFT_cpu.vec2k_ok p hWF _ (by
      show ((p.spH.M :: (⟨[p.M], yd⟩ : Arr K).shape.tail : List ℕ)).prod
        = p.Kd.prod * p.batch
      rw [NUFFT_cpu.wf_spH_M p hWF, hb1]
      simp), ok_bind]
    rw [NUFFT_cpu.k2xx_ok p hWF _ rfl (by
      dsimp only
      simp only [List.length_map, List.length_range, List.tail_cons, List.prod_nil,
        Nat.mul_one]
      rw [NUFFT_cpu.wf_spH_M p hWF, hmk]), ok_bind]
    rw [NUFFT_cpu.x2xx_ok_single p hWF hpf _ (by
      show NUFFT_cpu.multi_Nd p = p.Nd
      exact hmn)]
    refine congrArg Except.ok ?_
    dsimp only
    rw [hmk, hmn, NUFFT_cpu.wf_spH_M p hWF]
    simp only [List.tail_cons, List.prod_nil, Nat.mul_one, Nat.div_one, Nat.mod_one,
      Nat.add_zero]
  refine ⟨⟨NUFFT_cpu.multi_M p, fwdData p x.data⟩, ⟨p.Nd, (List.range p.Nd.prod).map (fun i =>
      (copyPairs (p.ft_axes.foldl (fun acc a => ifft1Core p.root p.invN a acc)
          (⟨p.Kd, (List.range p.Kd.prod).map (fun j => (p.spH.entries.map (fun e =>
            if e.1 = j then e.2.2 * yd.getD e.2.1 0 else 0)).sum)⟩ : Arr K)).data
        (NUFFT_cpu.gatherIdx p) (List.replicate p.Nd.prod 0)).getD i 0 *
      p.sn.data.getD i 0)⟩,
    forward_eq_single p hWF hpf x hx, hadj, ?_⟩
  show innerL (fwdData p x.data) yd = (p.Kd.prod : K) * innerL x.data ((List.range p.Nd.prod).map (fun i =>
      (copyPairs (p.ft_axes.foldl (fun acc a => ifft1Core p.root p.invN a acc)
          (⟨p.Kd, (List.range p.Kd.prod).map (fun j => (p.spH.entries.map (fun e =>
            if e.1 = j then e.2.2 * yd.getD e.2.1 0 else 0)).sum)⟩ : Arr K)).data
        (NUFFT_cpu.gatherIdx p) (List.replicate p.Nd.prod 0)).getD i 0 *
      p.sn.data.getD i 0))
  rw [fwdData_single p hpf x.data, hmk]
  rw [fftn_fold_eq_W p.root p.ft_axes p.Kd (⟨p.Kd, copyPairs
    ((List.range p.Nd.prod).map (fun i => x.data.getD i 0 * p.sn.data.getD i 0))
    (NUFFT_cpu.copyIdx p) (List.replicate p.Kd.prod 0)⟩ : Arr K) rfl]
  rw [haxKd]
  rw [innerL_scale_real x.data p.sn.data _ p.Nd.prod hxl h9 hsnreal]
  rw [NUFFT_cpu.gatherIdx_eq_swap p]
  have hrange : (List.range p.Kd.prod) = List.range p.sp.N := by
    rw [NUFFT_cpu.wf_spN p hWF]
  rw [hrange, NUFFT_cpu.wf_spH p hWF]
  exact inner_chain_duality p.root p.invN p.Kd p.sp (NUFFT_cpu.copyIdx p) p.Nd.prod
    ((List.range p.Nd.prod).map (fun i => x.data.getD i 0 * p.sn.data.getD i 0)) yd
    h13 (NUFFT_cpu.wf_spN p hWF) (NUFFT_cpu.copyIdx_snd_nodup p hWF) hfnodup
    (fun pr hpr => by
      have hbnd := NUFFT_cpu.copyIdx_bound p hWF pr hpr
      rw [hb1, Nat.mul_one, Nat.mul_one] at hbnd
      exact hbnd) hinv (by simp)

end C1Main

/-- C1 counterexample: at the concrete operator `pW` (`Nd=[1]`, `Kd=[2]`),
`⟨forward(x), y⟩ = 1` while `⟨x, adjoint(y)⟩ = 1/2`: the claimed exact
adjoint duality fails, because the `ifftn` inside `adjoint` divides by
`prod(Kd)` and nothing in `forward` compensates. -/
theorem C1_counterexample :
    ∃ fy ax : Arr GQ,
      NUFFT_cpu.forward pW ⟨[1], [1]⟩ = .ok fy ∧
      NUFFT_cpu.adjoint pW ⟨[1], [1]⟩ = .ok ax ∧
      innerA fy ⟨[1], [1]⟩ ≠ innerA (⟨[1], [1]⟩ : Arr GQ) ax := by
  refine ⟨⟨[1], [1]⟩, ⟨[1], [⟨(1 : ℚ)/2, 0⟩]⟩, ?_, ?_, ?_⟩ <;> with_unfolding_all decide

/-- Witness for the amended C1 at the concrete operator `pW`. -/
theorem C1_adjoint_duality_scaled_witness :
    ∃ fy ax : Arr GQ,
      NUFFT_cpu.forward pW ⟨[1], [1]⟩ = .ok fy ∧
      NUFFT_cpu.adjoint pW ⟨[1], [1]⟩ = .ok ax ∧
      innerA fy ⟨[1], [1]⟩ = (pW.Kd.prod : GQ) * innerA (⟨[1], [1]⟩ : Arr GQ) ax :=
  C1_adjoint_duality_scaled pW (by decide) (by decide) (by decide)
    (by with_unfolding_all decide) (by with_unfolding_all decide)
    ⟨[1], [1]⟩ ⟨[1], [1]⟩ (by decide) (by decide) (by decide)

/-- Witness for C10 at the concrete operator `pW`. -/
theorem C10_reorder_roundtrip_witness :
    (Arr.mk (NUFFT_cpu.multi_Nd pW)
        (copyPairs
          (copyPairs ((⟨[1], [⟨3, 1⟩]⟩ : Arr GQ).data) (NUFFT_cpu.copyIdx pW)
            (List.replicate ((NUFFT_cpu.multi_Kd pW).prod) 0))
          (NUFFT_cpu.gatherIdx pW) (List.replicate ((NUFFT_cpu.multi_Nd pW).prod) 0))
        = (⟨[1], [⟨3, 1⟩]⟩ : Arr GQ)) ∧
      pW.NdCPUorder.length = pW.KdCPUorder.length ∧
      pW.NdCPUorder.Nodup ∧ pW.KdCPUorder.Nodup ∧
      (∀ i, i < pW.Nd.prod → i ∈ pW.NdCPUorder) :=
  C10_reorder_roundtrip pW ⟨[1], [⟨3, 1⟩]⟩ (by decide) (by decide) (by decide)

section C5Section


/-- C5 counterexample: with the default `complex64` configuration the
oversampled-FFT stage and therefore the output of `forward` are
`complex128`, not the configured single-precision dtype — `numpy.fft.fftn`
upcasts unconditionally and `forward` never casts back. -/
theorem C5_counterexample :
    x2xxD NPDtype.c64 NPDtype.c64 = NPDtype.c64 ∧
    xx2kD NPDtype.c64 = NPDtype.c128 ∧
    forwardD NPDtype.c64 NPDtype.c64 = NPDtype.c128 ∧
    NPDtype.c128 ≠ NPDtype.c64 := by decide

/-- C5 (amended): dtype flow of the default `complex64` configuration —
the scaling stage stays `complex64`; the FFT stage and the `forward`
output are promoted to `complex128`; `adjoint` and `selfadjoint` return
`complex64` because their gather step writes into a plan-dtype buffer. -/
theorem C5_dtype_flow :
    x2xxD NPDtype.c64 NPDtype.c64 = NPDtype.c64 ∧
    xx2kD NPDtype.c64 = NPDtype.c128 ∧
    forwardD NPDtype.c64 NPDtype.c64 = NPDtype.c128 ∧
    (∀ yD, adjointD NPDtype.c64 NPDtype.c64 NPDtype.c64 yD = NPDtype.c64) ∧
    selfadjointD NPDtype.c64 NPDtype.c64 NPDtype.c64 NPDtype.c64 = NPDtype.c64 := by
  refine ⟨rfl, rfl, rfl, ?_, rfl⟩
  intro yD
  cases yD <;> rfl

end C5Section

section C3Section

variable {K : Type} [CommRing K] [StarRing K] [DecidableEq K]


/-- C3 counterexample: `plan` accepts `batch = 0` (returning 0 instead of
raising), and a failed call (here `Kd = [1] < Nd = [2]`) leaves partial
plan state behind — `self.ndims` has been assigned. -/
theorem C3_counterexample :
    ((planSteps gqRoot gqInvN gqCsqrt (⟨none, none, none, none⟩ : ObjState GQ) ⟨1, 1⟩
        [2] [2] [2] none (some 0)).2 = .ok 0) ∧
    ((planSteps gqRoot gqInvN gqCsqrt (⟨none, none, none, none⟩ : ObjState GQ) ⟨1, 1⟩
        [2] [1] [2] none none).2 = .error Err.configurationError) ∧
    ((planSteps gqRoot gqInvN gqCsqrt (⟨none, none, none, none⟩ : ObjState GQ) ⟨1, 1⟩
        [2] [1] [2] none none).1.ndims = some 1) ∧
    (some 1 ≠ (none : Option ℕ)) := by
  refine ⟨?_, ?_, ?_, ?_⟩ <;> decide

/-- C3 (amended): `plan` raises `ConfigurationError` exactly when the
geometry is malformed (dimension-count mismatch, some `Kd[i] < Nd[i]`, or
sample column count mismatch) — `batch` is never validated — and on
failure it has already assigned `ndims` and `ft_axes` (partial state is
retained); on valid geometry it returns 0. -/
theorem C3_plan_validation (root invN : ℕ → K) (csqrt : K → K) (obj : ObjState K)
    (om : OmShape) (Nd Kd Jd : List ℕ) (fta : Option (List ℕ)) (batch : Option ℕ) :
    (¬(Nd.length = Kd.length ∧ Nd.length = Jd.length ∧
        (∀ nk ∈ Nd.zip Kd, nk.1 ≤ nk.2) ∧ om.cols = Nd.length) →
      (planSteps root invN csqrt obj om Nd Kd Jd fta batch).2
          = .error Err.configurationError ∧
        (planSteps root invN csqrt obj om Nd Kd Jd fta batch).1.ndims
          = some Nd.length ∧
        (planSteps root invN csqrt obj om Nd Kd Jd fta batch).1.ft_axes
          = some (fta.getD (List.range Nd.length))) ∧
    ((Nd.length = Kd.length ∧ Nd.length = Jd.length ∧
        (∀ nk ∈ Nd.zip Kd, nk.1 ≤ nk.2) ∧ om.cols = Nd.length) →
      (planSteps root invN csqrt obj om Nd Kd Jd fta batch).2 = .ok 0) := by
  constructor
  · intro hbad
    unfold planSteps helperPlan
    rw [if_neg hbad]
    exact ⟨rfl, rfl, rfl⟩
  · intro hgood
    unfold planSteps helperPlan
    rw [if_pos hgood]

/-- Witness for the amended C3: a valid and an invalid concrete call. -/
theorem C3_plan_validation_witness :
    ((planSteps gqRoot gqInvN gqCsqrt (⟨none, none, none, none⟩ : ObjState GQ) ⟨3, 1⟩
        [2] [2] [2] none none).2 = .ok 0) ∧
    ((planSteps gqRoot gqInvN gqCsqrt (⟨none, none, none, none⟩ : ObjState GQ) ⟨3, 2⟩
        [2] [2] [2] none none).2 = .error Err.configurationError) :=
  ⟨(C3_plan_validation gqRoot gqInvN gqCsqrt ⟨none, none, none, none⟩ ⟨3, 1⟩
      [2] [2] [2] none none).2 (by decide),
   ((C3_plan_validation gqRoot gqInvN gqCsqrt ⟨none, none, none, none⟩ ⟨3, 2⟩
      [2] [2] [2] none none).1 (by decide)).1⟩

end C3Section

section C9Section

open NUFFT_cpu

variable {K : Type} [CommRing K] [StarRing K] [DecidableEq K]


/-- C9 counterexample: on a plan whose `W` cache is already in the
Computed state, a failing input makes the bare `try/except` of
`selfadjoint2` rerun `_precompute_sp` — the recomputation is triggered by
catching the body's failure (here an indexing failure on a malformed
input), not by an Uncomputed-state check. -/
theorem C9_counterexample :
    NUFFT_cpu.PlanWF pW9 ∧ pW9.W.isSome = true ∧ pW9.wCount = 0 ∧
    (NUFFT_cpu.selfadjoint2 pW9 ⟨[0], ([] : List GQ)⟩).1.wCount = 1 := by
  refine ⟨?_, ?_, ?_, ?_⟩ <;> with_unfolding_all decide

/-- C9 (amended): on a freshly planned single-channel operator (`W` in the
Uncomputed state) and a well-shaped input, the first `selfadjoint2` call
computes `W` exactly once and succeeds, and the second call on the same
input returns the identical state and result with no recomputation. -/
theorem C9_lazy_cache (p : Plan K) (hWF : NUFFT_cpu.PlanWF p)
    (hpf : p.parallel_flag = false) (hW : p.W = none)
    (x : Arr K) (hxl : x.data.length = p.Nd.prod) :
    ∃ (p1 : Plan K) (r : Arr K),
      NUFFT_cpu.selfadjoint2 p x = (p1, .ok r) ∧
      p1.wCount = p.wCount + 1 ∧ p1.W.isSome = true ∧
      NUFFT_cpu.selfadjoint2 p1 x = (p1, .ok r) := by
  have hwf2 := hWF
  obtain ⟨h1, h2, h3, h4, h5, h6, h7, h8, h9, h10, h11, h12, h13, h14⟩ := hwf2
  have hb1 : p.batch = 1 := h7 hpf
  have hmm0 : multi_M p = [p.M] := by
    unfold NUFFT_cpu.multi_M
    rw [hpf]
    rfl
  have hbody1 : NUFFT_cpu.selfadjoint2Body p x = .error Err.attributeError := by
    unfold NUFFT_cpu.selfadjoint2Body
    rw [hW]
  have hpre : ∃ w1 : Arr K, NUFFT_cpu.precompute_sp p
      = .ok { p with W := some w1, wCount := p.wCount + 1 } ∧ w1.shape = multi_Kd p := by
    unfold NUFFT_cpu.precompute_sp
    dsimp only
    obtain ⟨A, hA, hAsh, hAlen⟩ := adjoint_ok p hWF ⟨[p.M], List.replicate p.M 1⟩
      (by
        show ([p.M] : List ℕ) = multi_M p
        exact hmm0.symm)
      (by
        show (List.replicate p.M (1 : K)).length = (multi_M p).prod
        rw [List.length_replicate, multi_M_prod p hWF, hb1, Nat.mul_one])
    rw [hA, ok_bind]
    rw [xx2k_ok p hWF A (by rw [hAlen, multi_Nd_prod p hWF]), ok_bind]
    exact ⟨_, rfl, fft_fold_shape _ _ _⟩
  obtain ⟨w1, hpre, hw1sh⟩ := hpre
  have hWF1 : NUFFT_cpu.PlanWF ({ p with W := some w1, wCount := p.wCount + 1 } : Plan K) := hWF
  have hbody2 : ∃ r, NUFFT_cpu.selfadjoint2Body ({ p with W := some w1, wCount := p.wCount + 1 } : Plan K) x = .ok r := by
    unfold NUFFT_cpu.selfadjoint2Body
    show ∃ r, (xx2k ({ p with W := some w1, wCount := p.wCount + 1 } : Plan K) x >>= fun k =>
      arrMul w1 k >>= fun wk => k2xx ({ p with W := some w1, wCount := p.wCount + 1 } : Plan K) wk) = .ok r
    rw [xx2k_ok ({ p with W := some w1, wCount := p.wCount + 1 } : Plan K) hWF1 x (by
      show x.data.length = p.Nd.prod * p.batch
      rw [hb1, Nat.mul_one]
      exact hxl), ok_bind]
    rw [arrMul_eq_shapes w1 _ (by
      rw [hw1sh]
      exact (fft_fold_shape ({ p with W := some w1, wCount := p.wCount + 1 } : Plan K).root ({ p with W := some w1, wCount := p.wCount + 1 } : Plan K).ft_axes
        ⟨multi_Kd ({ p with W := some w1, wCount := p.wCount + 1 } : Plan K), copyPairs x.data (copyIdx ({ p with W := some w1, wCount := p.wCount + 1 } : Plan K))
          (List.replicate ((multi_Kd ({ p with W := some w1, wCount := p.wCount + 1 } : Plan K)).prod) 0)⟩).symm), ok_bind]
    rw [k2xx_ok ({ p with W := some w1, wCount := p.wCount + 1 } : Plan K) hWF1 _ (by
      show w1.shape = multi_Kd ({ p with W := some w1, wCount := p.wCount + 1 } : Plan K)
      exact hw1sh) (by
      show ((List.range w1.shape.prod).map _).length = (multi_Kd ({ p with W := some w1, wCount := p.wCount + 1 } : Plan K)).prod
      rw [List.length_map, List.length_range, hw1sh]
      rfl)]
    exact ⟨_, rfl⟩
  obtain ⟨r, hbody2⟩ := hbody2
  refine ⟨{ p with W := some w1, wCount := p.wCount + 1 }, r, ?_, rfl, rfl, ?_⟩
  · unfold NUFFT_cpu.selfadjoint2
    rw [hbody1, hpre]
    show (({ p with W := some w1, wCount := p.wCount + 1 } : Plan K), NUFFT_cpu.selfadjoint2Body ({ p with W := some w1, wCount := p.wCount + 1 } : Plan K) x)
      = (({ p with W := some w1, wCount := p.wCount + 1 } : Plan K), .ok r)
    rw [hbody2]
  · unfold NUFFT_cpu.selfadjoint2
    rw [hbody2]

/-- Witness for the amended C9 at the concrete operator `pW`. -/
theorem C9_lazy_cache_witness :
    ∃ (p1 : Plan GQ) (r : Arr GQ),
      NUFFT_cpu.selfadjoint2 pW ⟨[1], [1]⟩ = (p1, .ok r) ∧
      p1.wCount = pW.wCount + 1 ∧ p1.W.isSome = true ∧
      NUFFT_cpu.selfadjoint2 p1 ⟨[1], [1]⟩ = (p1, .ok r) :=
  C9_lazy_cache pW (by decide) (by decide) (by decide) ⟨[1], [1]⟩ (by decide)

end C9Section

end Pynufft